import Mathlib

/-!
# Verification of the torseed hashing and metainfo core

A shallow embedding, in Lean 4, of the streaming BitTorrent piece/leaf
hashers (`src/hash_v1.rs`, `src/hash_v2.rs`) and the canonical bencode
metainfo assembler (`src/metainfo.rs`) of the torseed repository, together
with proofs of the specified properties.

Conventions of the embedding:
* bytes are `Nat` (a `u8` value), byte strings are `List Nat`;
* `u64`/`usize` counters are `Nat`; the one place the code narrows a `u64`
  into an `i64` is modelled by an explicit range check (`i64_from_u64`);
* the SHA-1 and SHA-256 functions of the `sha1`/`sha2` crates are embedded
  as executable Lean functions over byte lists (FIPS 180-4 over `Nat`
  words reduced mod 2^32); their streaming states are represented by the
  byte sequence absorbed so far, which is what they are a function of;
* the temporary leaf file of `V2Hasher` is modelled as an in-memory list
  of leaf digests (an abstract sequential append/read-back store); the
  I/O-failure path is not modelled;
* Rust code that panics (the `u64` underflow / division by zero in
  `V2Hasher::finalize` when `piece_length == 0`) is modelled by `Option`:
  `none` is a panic.
-/

namespace Torseed

/-- Ceiling division on `Nat`, written `(a + b - 1) / b` exactly as the
source writes it (`hash_v2.rs` lines 67 and 113). -/
def cdiv (a b : Nat) : Nat := (a + b - 1) / b

/-! ## SHA-256 (the `sha2` crate's `Sha256`), over byte lists -/

/-- Reduce to a 32-bit word. -/
def u32 (n : Nat) : Nat := n % 4294967296

/-- Addition mod 2^32. -/
def add32 (a b : Nat) : Nat := u32 (a + b)

/-- Right rotation of a 32-bit word. -/
def rotr32 (n x : Nat) : Nat := u32 ((x >>> n) ||| (x <<< (32 - n)))

/-- SHA-256 Ch function. -/
def sha2Ch (e f g : Nat) : Nat := u32 ((e &&& f) ^^^ ((e ^^^ 4294967295) &&& g))

/-- SHA-256 Maj function. -/
def sha2Maj (a b c : Nat) : Nat := u32 ((a &&& b) ^^^ (a &&& c) ^^^ (b &&& c))

/-- SHA-256 big sigma 0. -/
def bigSigma0 (x : Nat) : Nat := (rotr32 2 x) ^^^ (rotr32 13 x) ^^^ (rotr32 22 x)

/-- SHA-256 big sigma 1. -/
def bigSigma1 (x : Nat) : Nat := (rotr32 6 x) ^^^ (rotr32 11 x) ^^^ (rotr32 25 x)

/-- SHA-256 small sigma 0. -/
def smallSigma0 (x : Nat) : Nat := (rotr32 7 x) ^^^ (rotr32 18 x) ^^^ (x >>> 3)

/-- SHA-256 small sigma 1. -/
def smallSigma1 (x : Nat) : Nat := (rotr32 17 x) ^^^ (rotr32 19 x) ^^^ (x >>> 10)

/-- The 64 SHA-256 round constants. -/
def sha256K : List Nat :=
  [1116352408, 1899447441, 3049323471, 3921009573, 961987163,
   1508970993, 2453635748, 2870763221, 3624381080, 310598401,
   607225278, 1426881987, 1925078388, 2162078206, 2614888103,
   3248222580, 3835390401, 4022224774, 264347078, 604807628,
   770255983, 1249150122, 1555081692, 1996064986, 2554220882,
   2821834349, 2952996808, 3210313671, 3336571891, 3584528711,
   113926993, 338241895, 666307205, 773529912, 1294757372,
   1396182291, 1695183700, 1986661051, 2177026350, 2456956037,
   2730485921, 2820302411, 3259730800, 3345764771, 3516065817,
   3600352804, 4094571909, 275423344, 430227734, 506948616,
   659060556, 883997877, 958139571, 1322822218, 1537002063,
   1747873779, 1955562222, 2024104815, 2227730452, 2361852424,
   2428436474, 2756734187, 3204031479, 3329325298]

/-- SHA-256 initial hash value. -/
def sha256H0 : List Nat :=
  [1779033703, 3144134277, 1013904242, 2773480762,
   1359893119, 2600822924, 528734635, 1541459225]

/-- Big-endian 32-bit words from a byte list (4 bytes per word; a trailing
fragment of fewer than 4 bytes is dropped — never reached on 64-byte blocks). -/
def words32 : List Nat → List Nat
  | b0 :: b1 :: b2 :: b3 :: rest =>
      u32 ((b0 <<< 24) ||| (b1 <<< 16) ||| (b2 <<< 8) ||| b3) :: words32 rest
  | _ => []

/-- One step of the SHA-256 message-schedule extension: append
`sigma1 w[i-2] + w[i-7] + sigma0 w[i-15] + w[i-16]`. -/
def sha256ExtendStep (ws : List Nat) : List Nat :=
  let i := ws.length
  ws ++ [add32 (add32 (smallSigma1 (ws.getD (i - 2) 0)) (ws.getD (i - 7) 0))
              (add32 (smallSigma0 (ws.getD (i - 15) 0)) (ws.getD (i - 16) 0))]

/-- The 64-word SHA-256 message schedule of one 64-byte block. -/
def sha256Schedule (block : List Nat) : List Nat :=
  sha256ExtendStep^[48] (words32 block)

/-- One SHA-256 round: the state is the 8-word list `[a,b,c,d,e,f,g,h]`,
`kw` packs the round constant and the schedule word. -/
def sha256Round (st : List Nat) (kw : Nat × Nat) : List Nat :=
  let a := st.getD 0 0
  let b := st.getD 1 0
  let c := st.getD 2 0
  let d := st.getD 3 0
  let e := st.getD 4 0
  let f := st.getD 5 0
  let g := st.getD 6 0
  let h := st.getD 7 0
  let t1 := add32 (add32 (add32 h (bigSigma1 e)) (add32 (sha2Ch e f g) kw.1)) kw.2
  let t2 := add32 (bigSigma0 a) (sha2Maj a b c)
  [add32 t1 t2, a, b, c, add32 d t1, e, f, g]

/-- SHA-256 compression of one 64-byte block into the running state. -/
def sha256Block (st block : List Nat) : List Nat :=
  let r := (sha256K.zip (sha256Schedule block)).foldl sha256Round st
  List.zipWith add32 st r

/-- Big-endian bytes of a 32-bit word. -/
def bytesOfWord32 (w : Nat) : List Nat :=
  [(w >>> 24) % 256, (w >>> 16) % 256, (w >>> 8) % 256, w % 256]

/-- Big-endian bytes of a 64-bit word. -/
def bytesOfWord64 (n : Nat) : List Nat :=
  [(n >>> 56) % 256, (n >>> 48) % 256, (n >>> 40) % 256, (n >>> 32) % 256,
   (n >>> 24) % 256, (n >>> 16) % 256, (n >>> 8) % 256, n % 256]

/-- Merkle–Damgård padding shared by SHA-1 and SHA-256: a `0x80` byte,
zeros to 56 mod 64, then the bit length as a big-endian 64-bit word. -/
def shaPad (msg : List Nat) : List Nat :=
  msg ++ 0x80 :: List.replicate ((64 - ((msg.length + 9) % 64)) % 64) 0
      ++ bytesOfWord64 (8 * msg.length)

/-- Split a byte list into 64-byte blocks (the last block is shorter only
if the input length is not a multiple of 64, which padding rules out). -/
def blocks64 (l : List Nat) : List (List Nat) :=
  if h : l = [] then []
  else
    l.take 64 :: blocks64 (l.drop 64)
termination_by l.length
decreasing_by
  simp only [List.length_drop]
  have : l.length ≠ 0 := fun hn => h (List.eq_nil_of_length_eq_zero hn)
  omega

/-- SHA-256 of a byte list: pad, compress block by block, serialize the
eight state words big-endian. -/
def sha256 (msg : List Nat) : List Nat :=
  (((blocks64 (shaPad msg)).foldl sha256Block sha256H0).map bytesOfWord32).flatten

/-! ## SHA-1 (the `sha1` crate's `Sha1`), over byte lists -/

/-- Left rotation of a 32-bit word. -/
def rotl32 (n x : Nat) : Nat := u32 ((x <<< n) ||| (x >>> (32 - n)))

/-- SHA-1 initial hash value. -/
def sha1H0 : List Nat :=
  [1732584193, 4023233417, 2562383102, 271733878, 3285377520]

/-- SHA-1 round function, selected by the round index. -/
def sha1F (i b c d : Nat) : Nat :=
  if i < 20 then u32 ((b &&& c) ||| ((b ^^^ 4294967295) &&& d))
  else if i < 40 then u32 (b ^^^ c ^^^ d)
  else if i < 60 then u32 ((b &&& c) ||| (b &&& d) ||| (c &&& d))
  else u32 (b ^^^ c ^^^ d)

/-- SHA-1 round constant, selected by the round index. -/
def sha1KOf (i : Nat) : Nat :=
  if i < 20 then 1518500249
  else if i < 40 then 1859775393
  else if i < 60 then 2400959708
  else 3395469782

/-- One step of the SHA-1 message-schedule extension: append
`rotl1 (w[i-3] xor w[i-8] xor w[i-14] xor w[i-16])`. -/
def sha1ExtendStep (ws : List Nat) : List Nat :=
  let i := ws.length
  ws ++ [rotl32 1 ((ws.getD (i - 3) 0) ^^^ (ws.getD (i - 8) 0)
                   ^^^ (ws.getD (i - 14) 0) ^^^ (ws.getD (i - 16) 0))]

/-- The 80-word SHA-1 message schedule of one 64-byte block. -/
def sha1Schedule (block : List Nat) : List Nat :=
  sha1ExtendStep^[64] (words32 block)

/-- One SHA-1 round: the state is the 5-word list `[a,b,c,d,e]`, `iw`
packs the round index and the schedule word. -/
def sha1Round (st : List Nat) (iw : Nat × Nat) : List Nat :=
  let a := st.getD 0 0
  let b := st.getD 1 0
  let c := st.getD 2 0
  let d := st.getD 3 0
  let e := st.getD 4 0
  let t := add32 (add32 (add32 (rotl32 5 a) (sha1F iw.1 b c d))
                 (add32 e (sha1KOf iw.1))) iw.2
  [t, a, rotl32 30 b, c, d]

/-- SHA-1 compression of one 64-byte block into the running state. -/
def sha1Block (st block : List Nat) : List Nat :=
  let r := (((List.range 80).zip (sha1Schedule block))).foldl sha1Round st
  List.zipWith add32 st r

/-- SHA-1 of a byte list: pad, compress block by block, serialize the five
state words big-endian. -/
def sha1 (msg : List Nat) : List Nat :=
  (((blocks64 (shaPad msg)).foldl sha1Block sha1H0).map bytesOfWord32).flatten

/-! ### Digest lengths -/

theorem sha256Round_length (st : List Nat) (kw : Nat × Nat) :
    (sha256Round st kw).length = 8 := rfl

theorem sha1Round_length (st : List Nat) (iw : Nat × Nat) :
    (sha1Round st iw).length = 5 := rfl

theorem foldl_sha256Round_length (l : List (Nat × Nat)) (st : List Nat)
    (h : st.length = 8) : (l.foldl sha256Round st).length = 8 := by
  induction l generalizing st with
  | nil => simpa using h
  | cons x xs ih => exact ih _ (sha256Round_length st x)

theorem foldl_sha1Round_length (l : List (Nat × Nat)) (st : List Nat)
    (h : st.length = 5) : (l.foldl sha1Round st).length = 5 := by
  induction l generalizing st with
  | nil => simpa using h
  | cons x xs ih => exact ih _ (sha1Round_length st x)

theorem sha256Block_length (st block : List Nat) (h : st.length = 8) :
    (sha256Block st block).length = 8 := by
  simp [sha256Block, List.length_zipWith, h, foldl_sha256Round_length _ _ h]

theorem sha1Block_length (st block : List Nat) (h : st.length = 5) :
    (sha1Block st block).length = 5 := by
  simp [sha1Block, List.length_zipWith, h, foldl_sha1Round_length _ _ h]

theorem foldl_sha256Block_length (bs : List (List Nat)) (st : List Nat)
    (h : st.length = 8) : (bs.foldl sha256Block st).length = 8 := by
  induction bs generalizing st with
  | nil => simpa using h
  | cons b rest ih => exact ih _ (sha256Block_length st b h)

theorem foldl_sha1Block_length (bs : List (List Nat)) (st : List Nat)
    (h : st.length = 5) : (bs.foldl sha1Block st).length = 5 := by
  induction bs generalizing st with
  | nil => simpa using h
  | cons b rest ih => exact ih _ (sha1Block_length st b h)

theorem flatten_map_bytesOfWord32_length (ws : List Nat) :
    ((ws.map bytesOfWord32).flatten).length = 4 * ws.length := by
  induction ws with
  | nil => rfl
  | cons w rest ih =>
      simp [bytesOfWord32, ih]
      ring

/-- Every SHA-256 digest is 32 bytes. -/
theorem sha256_length (msg : List Nat) : (sha256 msg).length = 32 := by
  rw [sha256, flatten_map_bytesOfWord32_length,
      foldl_sha256Block_length _ _ (by rfl : sha256H0.length = 8)]

/-- Every SHA-1 digest is 20 bytes. -/
theorem sha1_length (msg : List Nat) : (sha1 msg).length = 20 := by
  rw [sha1, flatten_map_bytesOfWord32_length,
      foldl_sha1Block_length _ _ (by rfl : sha1H0.length = 5)]

/-! ## V1Hasher (src/hash_v1.rs)

The running `Sha1` state of the crate is a function of the bytes absorbed
since the last piece boundary; the field `hasher` holds exactly those
bytes, and `flush_piece` applies `sha1` to them. -/

/-- Streaming SHA-1 piece hasher for BitTorrent v1 (`hash_v1.rs` lines 4-9). -/
structure V1Hasher where
  piece_length : Nat
  current_len : Nat
  hasher : List Nat
  pieces : List Nat

/-- `V1Hasher::new` (`hash_v1.rs` lines 12-19). -/
def V1Hasher.new (piece_length : Nat) : V1Hasher :=
  ⟨piece_length, 0, [], []⟩

/-- `V1Hasher::flush_piece` (`hash_v1.rs` lines 42-48). -/
def V1Hasher.flush_piece (h : V1Hasher) : V1Hasher :=
  { h with pieces := h.pieces ++ sha1 h.hasher, hasher := [], current_len := 0 }

/-- `V1Hasher::update` (`hash_v1.rs` lines 21-33): the `while` loop over the
remaining slice. When `to_take = 0` (reachable only if `piece_length ≤
current_len`, which never holds for `piece_length > 0`) the Rust loop never
terminates; the embedding returns the state unchanged there. -/
def V1Hasher.update (h : V1Hasher) (data : List Nat) : V1Hasher :=
  if _hd : data = [] then h
  else
    if _ht : min (h.piece_length - h.current_len) data.length = 0 then h
    else
      let to_take := min (h.piece_length - h.current_len) data.length
      let chunk := data.take to_take
      let h1 : V1Hasher :=
        { h with hasher := h.hasher ++ chunk, current_len := h.current_len + to_take }
      let h2 := if h1.current_len = h1.piece_length then h1.flush_piece else h1
      h2.update (data.drop to_take)
termination_by data.length
decreasing_by
  simp only [List.length_drop]
  have h1 : data.length ≠ 0 := fun hn => _hd (List.eq_nil_of_length_eq_zero hn)
  have h2 : min (h.piece_length - h.current_len) data.length ≤ data.length :=
    Nat.min_le_right _ _
  omega

/-- `V1Hasher::finalize` (`hash_v1.rs` lines 35-40). -/
def V1Hasher.finalize (h : V1Hasher) : List Nat :=
  if 0 < h.current_len then h.flush_piece.pieces else h.pieces

/-- One-byte step of `V1Hasher::update`; `update` on any chunk equals the
fold of this step over the chunk's bytes (proved below). -/
def V1Hasher.update1 (h : V1Hasher) (b : Nat) : V1Hasher :=
  let h1 : V1Hasher :=
    { h with hasher := h.hasher ++ [b], current_len := h.current_len + 1 }
  if h1.current_len = h1.piece_length then h1.flush_piece else h1

theorem V1Hasher.update1_piece_length (h : V1Hasher) (b : Nat) :
    (h.update1 b).piece_length = h.piece_length := by
  unfold update1 flush_piece
  dsimp only
  split <;> rfl

theorem V1Hasher.update1_current_lt (h : V1Hasher) (b : Nat)
    (hpl : 0 < h.piece_length) (_hc : h.current_len < h.piece_length) :
    (h.update1 b).current_len < (h.update1 b).piece_length := by
  unfold update1 flush_piece
  dsimp only
  split
  · simpa using hpl
  · next hne => simp at hne ⊢; omega

theorem V1Hasher.foldl_update1_piece_length (data : List Nat) (h : V1Hasher) :
    (data.foldl V1Hasher.update1 h).piece_length = h.piece_length := by
  induction data generalizing h with
  | nil => rfl
  | cons b rest ih => rw [List.foldl_cons, ih, V1Hasher.update1_piece_length]

theorem V1Hasher.foldl_update1_current_lt (data : List Nat) (h : V1Hasher)
    (hpl : 0 < h.piece_length) (hc : h.current_len < h.piece_length) :
    (data.foldl V1Hasher.update1 h).current_len
      < (data.foldl V1Hasher.update1 h).piece_length := by
  induction data generalizing h with
  | nil => exact hc
  | cons b rest ih =>
      rw [List.foldl_cons]
      exact ih _ (by rw [V1Hasher.update1_piece_length]; exact hpl)
        (V1Hasher.update1_current_lt h b hpl hc)

/-- Absorbing a chunk that stays strictly below the piece boundary only
grows the running hasher. -/
theorem V1Hasher.foldl_update1_no_flush (chunk : List Nat) :
    ∀ h : V1Hasher, h.current_len + chunk.length < h.piece_length →
      chunk.foldl V1Hasher.update1 h
        = { h with hasher := h.hasher ++ chunk,
                   current_len := h.current_len + chunk.length } := by
  induction chunk with
  | nil => intro h _; simp
  | cons b rest ih =>
      intro h hlt
      simp only [List.length_cons] at hlt
      have hcond : ¬ (h.current_len + 1 = h.piece_length) := by omega
      have hstep : h.update1 b
          = { h with hasher := h.hasher ++ [b], current_len := h.current_len + 1 } := by
        unfold update1; dsimp only; rw [if_neg hcond]
      rw [List.foldl_cons, hstep, ih _ (by dsimp only; omega)]
      simp [V1Hasher.mk.injEq, List.append_assoc]
      omega

/-- Absorbing a chunk that lands exactly on the piece boundary flushes a
digest of everything absorbed since the last boundary. -/
theorem V1Hasher.foldl_update1_flush (chunk : List Nat) :
    ∀ h : V1Hasher, chunk ≠ [] → h.current_len + chunk.length = h.piece_length →
      chunk.foldl V1Hasher.update1 h
        = ⟨h.piece_length, 0, [], h.pieces ++ sha1 (h.hasher ++ chunk)⟩ := by
  induction chunk with
  | nil => intro h hne _; exact absurd rfl hne
  | cons b rest ih =>
      intro h _ heq
      simp only [List.length_cons] at heq
      rw [List.foldl_cons]
      by_cases hr : rest = []
      · subst hr
        simp only [List.length_nil] at heq
        have hcond : h.current_len + 1 = h.piece_length := by omega
        simp only [List.foldl_nil]
        unfold update1 flush_piece
        dsimp only
        rw [if_pos hcond]
      · have hcond : ¬ (h.current_len + 1 = h.piece_length) := by
          have : rest.length ≠ 0 := fun hn => hr (List.eq_nil_of_length_eq_zero hn)
          omega
        have hstep : h.update1 b
            = { h with hasher := h.hasher ++ [b], current_len := h.current_len + 1 } := by
          unfold update1; dsimp only; rw [if_neg hcond]
        rw [hstep, ih _ hr (by dsimp only; omega)]
        simp [V1Hasher.mk.injEq, List.append_assoc]

/-- `V1Hasher::update` is the fold of the one-byte step over the chunk. -/
theorem V1Hasher.update_eq_foldl_aux (n : Nat) :
    ∀ data : List Nat, data.length ≤ n → ∀ h : V1Hasher,
      h.current_len < h.piece_length →
      h.update data = data.foldl V1Hasher.update1 h := by
  induction n with
  | zero =>
      intro data hlen h _
      have hd : data = [] := List.eq_nil_of_length_eq_zero (Nat.le_zero.mp hlen)
      subst hd
      rw [V1Hasher.update]
      simp
  | succ n ih =>
      intro data hlen h hc
      by_cases hd : data = []
      · subst hd; rw [V1Hasher.update]; simp
      · have hdlen : 0 < data.length := List.length_pos.mpr hd
        have hrem : 0 < h.piece_length - h.current_len := by omega
        have htne : ¬ (min (h.piece_length - h.current_len) data.length = 0) := by
          simp only [Nat.min_eq_zero_iff]
          omega
        rw [V1Hasher.update, dif_neg hd, dif_neg htne]
        dsimp only
        set t := min (h.piece_length - h.current_len) data.length with htdef
        have ht1 : 1 ≤ t := Nat.one_le_iff_ne_zero.mpr htne
        have htle : t ≤ data.length := Nat.min_le_right _ _
        have hsplit : data = data.take t ++ data.drop t := (List.take_append_drop t data).symm
        have htake_len : (data.take t).length = t := List.length_take_of_le htle
        have hfold : data.foldl V1Hasher.update1 h
            = (data.drop t).foldl V1Hasher.update1 ((data.take t).foldl V1Hasher.update1 h) := by
          conv_lhs => rw [hsplit]
          rw [List.foldl_append]
        by_cases hcase : h.piece_length - h.current_len ≤ data.length
        · -- the chunk reaches the boundary: a flush happens
          have htval : t = h.piece_length - h.current_len := by
            rw [htdef]; exact Nat.min_eq_left hcase
          have hboundary : h.current_len + t = h.piece_length := by omega
          have hflushed : (data.take t).foldl V1Hasher.update1 h
              = ⟨h.piece_length, 0, [], h.pieces ++ sha1 (h.hasher ++ data.take t)⟩ := by
            apply V1Hasher.foldl_update1_flush
            · intro hnil
              rw [hnil] at htake_len
              simp at htake_len
              omega
            · rw [htake_len]; exact hboundary
          have hifpos : h.current_len + t = h.piece_length := hboundary
          rw [if_pos (show h.current_len + t = h.piece_length from hifpos)]
          rw [hfold, hflushed]
          have : V1Hasher.flush_piece
                { h with hasher := h.hasher ++ data.take t, current_len := h.current_len + t }
              = ⟨h.piece_length, 0, [], h.pieces ++ sha1 (h.hasher ++ data.take t)⟩ := rfl
          rw [this]
          apply ih
          · have : (data.drop t).length = data.length - t := by simp
            omega
          · dsimp only; omega
        · -- the chunk ends strictly inside the piece: no flush
          have htval : t = data.length := by
            rw [htdef]; exact Nat.min_eq_right (by omega)
          have hlt : h.current_len + t < h.piece_length := by omega
          have hifneg : ¬ (h.current_len + t = h.piece_length) := by omega
          rw [if_neg (show ¬ (h.current_len + t = h.piece_length) from hifneg)]
          have hdrop : data.drop t = [] := by
            rw [htval]; exact List.drop_length data
          rw [hdrop, V1Hasher.update]
          simp only [dif_pos rfl]
          rw [hfold, hdrop, List.foldl_nil]
          rw [V1Hasher.foldl_update1_no_flush _ _ (by rw [htake_len]; exact hlt)]
          simp [V1Hasher.mk.injEq, htake_len, htval]

/-- `V1Hasher::update` on a chunk is extensionally the byte-by-byte fold. -/
theorem V1Hasher.update_eq_foldl (h : V1Hasher) (data : List Nat)
    (hc : h.current_len < h.piece_length) :
    h.update data = data.foldl V1Hasher.update1 h :=
  V1Hasher.update_eq_foldl_aux data.length data le_rfl h hc

/-! ### Ceiling division -/

theorem cdiv_eq (a b : Nat) (hb : 0 < b) :
    cdiv a b = a / b + if a % b = 0 then 0 else 1 := by
  rcases Nat.eq_zero_or_pos a with ha | ha
  · subst ha
    simp [cdiv, Nat.div_eq_of_lt (by omega : b - 1 < b)]
  · have h1 : a + b - 1 = (a - 1) + b := by omega
    rw [cdiv, h1, Nat.add_div_right _ hb]
    rcases Nat.eq_zero_or_pos (a % b) with hr | hr
    · rw [if_pos hr]
      have hdvd : b * (a / b) = a := by
        have := Nat.div_add_mod a b
        omega
      have hq : 0 < a / b := by
        rcases Nat.eq_zero_or_pos (a / b) with h0 | h0
        · rw [h0, Nat.mul_zero] at hdvd; omega
        · exact h0
      have hsub : a - 1 = b * (a / b - 1) + (b - 1) := by
        have hsplit : b * (a / b) = b * (a / b - 1) + b := by
          have hrw : a / b = (a / b - 1) + 1 := by omega
          calc b * (a / b) = b * ((a / b - 1) + 1) := by rw [← hrw]
            _ = b * (a / b - 1) + b := by rw [Nat.mul_add, Nat.mul_one]
        omega
      rw [hsub, Nat.mul_add_div hb, Nat.div_eq_of_lt (by omega : b - 1 < b)]
      omega
    · rw [if_neg (by omega)]
      have hmod : a % b < b := Nat.mod_lt _ hb
      have hdm := Nat.div_add_mod a b
      have hsub : a - 1 = b * (a / b) + (a % b - 1) := by omega
      rw [hsub, Nat.mul_add_div hb, Nat.div_eq_of_lt (by omega : a % b - 1 < b)]

/-- State of a byte-fold from an in-invariant state: `current_len` tracks
the stream length mod `piece_length`, the running hasher holds exactly
`current_len` bytes, and 20 output bytes exist per completed piece. -/
theorem V1Hasher.foldl_update1_spec (data : List Nat) :
    ∀ h : V1Hasher, h.current_len < h.piece_length →
      h.hasher.length = h.current_len →
      (data.foldl V1Hasher.update1 h).current_len
          = (h.current_len + data.length) % h.piece_length
      ∧ (data.foldl V1Hasher.update1 h).hasher.length
          = (data.foldl V1Hasher.update1 h).current_len
      ∧ (data.foldl V1Hasher.update1 h).pieces.length
          = h.pieces.length + 20 * ((h.current_len + data.length) / h.piece_length) := by
  induction data with
  | nil =>
      intro h hc hh
      simp [Nat.mod_eq_of_lt hc, Nat.div_eq_of_lt hc, hh]
  | cons b rest ih =>
      intro h hc hh
      have hpl : 0 < h.piece_length := by omega
      rw [List.foldl_cons]
      by_cases hcond : h.current_len + 1 = h.piece_length
      · have hstep : h.update1 b
            = ⟨h.piece_length, 0, [], h.pieces ++ sha1 (h.hasher ++ [b])⟩ := by
          unfold update1 flush_piece; dsimp only; rw [if_pos hcond]
        rw [hstep]
        obtain ⟨ih1, ih2, ih3⟩ :=
          ih ⟨h.piece_length, 0, [], h.pieces ++ sha1 (h.hasher ++ [b])⟩ hpl rfl
        simp only [List.length_append, sha1_length, Nat.zero_add] at ih1 ih3
        refine ⟨?_, ih2, ?_⟩
        · rw [ih1]
          simp only [List.length_cons]
          have harith : h.current_len + (rest.length + 1) = h.piece_length + rest.length := by
            omega
          rw [harith, Nat.add_mod_left]
        · rw [ih3]
          simp only [List.length_cons]
          have harith : h.current_len + (rest.length + 1) = h.piece_length + rest.length := by
            omega
          rw [harith, Nat.add_div_left _ hpl]
          omega
      · have hstep : h.update1 b
            = { h with hasher := h.hasher ++ [b], current_len := h.current_len + 1 } := by
          unfold update1; dsimp only; rw [if_neg hcond]
        rw [hstep]
        obtain ⟨ih1, ih2, ih3⟩ :=
          ih { h with hasher := h.hasher ++ [b], current_len := h.current_len + 1 }
            (by dsimp only; omega) (by simp [hh])
        simp only [Nat.zero_add] at ih1 ih3
        refine ⟨?_, ih2, ?_⟩
        · rw [ih1]
          simp only [List.length_cons]
          have harith : h.current_len + 1 + rest.length
              = h.current_len + (rest.length + 1) := by omega
          rw [harith]
        · rw [ih3]
          simp only [List.length_cons]
          have harith : h.current_len + 1 + rest.length
              = h.current_len + (rest.length + 1) := by omega
          rw [harith]

/-- A fold of chunk-level updates equals the byte fold of the flattened
stream (any chunking yields the same state). -/
theorem V1Hasher.foldl_update_eq (cs : List (List Nat)) :
    ∀ h : V1Hasher, h.current_len < h.piece_length →
      cs.foldl V1Hasher.update h = cs.flatten.foldl V1Hasher.update1 h := by
  induction cs with
  | nil => intro h _; rfl
  | cons c rest ih =>
      intro h hc
      have hpl : 0 < h.piece_length := by omega
      rw [List.foldl_cons, List.flatten_cons, List.foldl_append,
          V1Hasher.update_eq_foldl h c hc]
      exact ih _ (V1Hasher.foldl_update1_current_lt c h hpl hc)

/-- The complete v1 digest sequence of a chunked stream: exactly
`20 * ceil(L / piece_length)` bytes. -/
theorem V1Hasher.stream_pieces_length (pl : Nat) (hpl : 0 < pl)
    (cs : List (List Nat)) :
    ((cs.foldl V1Hasher.update (V1Hasher.new pl)).finalize).length
      = 20 * cdiv cs.flatten.length pl := by
  have hc0 : (V1Hasher.new pl).current_len < (V1Hasher.new pl).piece_length := by
    simpa [V1Hasher.new] using hpl
  rw [V1Hasher.foldl_update_eq cs _ hc0]
  obtain ⟨h1, h2, h3⟩ :=
    V1Hasher.foldl_update1_spec cs.flatten (V1Hasher.new pl) hc0 rfl
  have hplf : (cs.flatten.foldl V1Hasher.update1 (V1Hasher.new pl)).piece_length = pl :=
    V1Hasher.foldl_update1_piece_length _ _
  set s := cs.flatten.foldl V1Hasher.update1 (V1Hasher.new pl) with hs
  simp only [V1Hasher.new] at h1 h3
  simp only [Nat.zero_add, List.length_nil] at h1 h3
  rw [cdiv_eq _ _ hpl]
  unfold V1Hasher.finalize
  by_cases hcur : 0 < s.current_len
  · rw [if_pos hcur]
    have hflush : s.flush_piece.pieces.length = s.pieces.length + 20 := by
      simp [V1Hasher.flush_piece, sha1_length]
    have hmodne : ¬ (cs.flatten.length % pl = 0) := by omega
    rw [if_neg hmodne, hflush, h3]
    omega
  · rw [if_neg hcur]
    have hmodz : cs.flatten.length % pl = 0 := by omega
    rw [if_pos hmodz, h3]
    omega

/-! ## V2Hasher and the Merkle tree builder (src/hash_v2.rs) -/

/-- `LEAF_SIZE` (`hash_v2.rs` line 7). -/
def LEAF_SIZE : Nat := 16 * 1024

/-- `V2Summary` (`hash_v2.rs` lines 9-13). -/
structure V2Summary where
  pieces_root : List Nat
  piece_layers : List Nat

/-- `V2Hasher` (`hash_v2.rs` lines 15-20): the temp-file-backed leaf store is
the `leaves` list, in write order; `leaf_count` of the source is
`leaves.length`, and `read_leaves` returns exactly this list. -/
structure V2Hasher where
  buffer : List Nat
  leaves : List (List Nat)
  total_bytes : Nat

/-- `V2Hasher::new` (`hash_v2.rs` lines 23-31). -/
def V2Hasher.new : V2Hasher := ⟨[], [], 0⟩

/-- `V2Hasher::flush_leaf` (`hash_v2.rs` lines 83-88): hash the buffered
leaf, append the digest to the store, clear the buffer. -/
def V2Hasher.flush_leaf (h : V2Hasher) : V2Hasher :=
  { h with leaves := h.leaves ++ [sha256 h.buffer], buffer := [] }

/-- The `while` loop of `V2Hasher::update` (`hash_v2.rs` lines 36-45).
When `to_take = 0` (reachable only if `LEAF_SIZE ≤ buffer.length`, which the
invariant rules out) the Rust loop never terminates; the embedding returns
the state unchanged there. -/
def V2Hasher.updateLoop (h : V2Hasher) (data : List Nat) : V2Hasher :=
  if _hd : data = [] then h
  else
    if _ht : min (LEAF_SIZE - h.buffer.length) data.length = 0 then h
    else
      let to_take := min (LEAF_SIZE - h.buffer.length) data.length
      let h1 : V2Hasher := { h with buffer := h.buffer ++ data.take to_take }
      let h2 := if h1.buffer.length = LEAF_SIZE then h1.flush_leaf else h1
      h2.updateLoop (data.drop to_take)
termination_by data.length
decreasing_by
  simp only [List.length_drop]
  have h1 : data.length ≠ 0 := fun hn => _hd (List.eq_nil_of_length_eq_zero hn)
  have h2 : min (LEAF_SIZE - h.buffer.length) data.length ≤ data.length :=
    Nat.min_le_right _ _
  omega

/-- `V2Hasher::update` (`hash_v2.rs` lines 33-48): add the chunk length to
`total_bytes`, then run the leaf-filling loop. -/
def V2Hasher.update (h : V2Hasher) (data : List Nat) : V2Hasher :=
  V2Hasher.updateLoop { h with total_bytes := h.total_bytes + data.length } data

/-- `hash_pair` (`hash_v2.rs` lines 152-157). -/
def hash_pair (left right : List Nat) : List Nat := sha256 (left ++ right)

/-- `level.chunks_exact(2)` mapped through `hash_pair`
(`hash_v2.rs` lines 142-146). -/
def pairChunks : List (List Nat) → List (List Nat)
  | a :: b :: rest => hash_pair a b :: pairChunks rest
  | _ => []

theorem pairChunks_length : ∀ l : List (List Nat), (pairChunks l).length = l.length / 2
  | [] => rfl
  | [_] => by simp [pairChunks]
  | _ :: _ :: rest => by
      simp [pairChunks, pairChunks_length rest]
      omega

/-- The `while level.len() > 1` loop of `merkle_root`
(`hash_v2.rs` lines 136-149): duplicate the last node when the level has an
odd count, then pair adjacent nodes. -/
def merkle_loop (level : List (List Nat)) : List Nat :=
  if _h : level.length ≤ 1 then level.headD []
  else
    merkle_loop (pairChunks
      (if level.length % 2 = 1 then level ++ [level.getLastD []] else level))
termination_by level.length
decreasing_by
  rw [pairChunks_length]
  split <;> simp <;> omega

/-- `merkle_root` (`hash_v2.rs` lines 129-150). -/
def merkle_root (nodes : List (List Nat)) : List Nat :=
  if nodes = [] then sha256 []
  else merkle_loop nodes

/-- The `for _ in 0..piece_count` loop of `build_piece_layers`
(`hash_v2.rs` lines 115-124): take `leaves_per_piece` leaves per piece,
stop early when the leaves run out. -/
def piece_layers_loop (leaves : List (List Nat)) (leaves_per_piece : Nat) :
    Nat → Nat → List Nat
  | 0, _ => []
  | n + 1, index =>
      if leaves.length ≤ index then []
      else
        let e := min (index + leaves_per_piece) leaves.length
        merkle_root ((leaves.drop index).take (e - index))
          ++ piece_layers_loop leaves leaves_per_piece n e

/-- `build_piece_layers` (`hash_v2.rs` lines 108-127). -/
def build_piece_layers (leaves : List (List Nat)) (piece_length piece_count : Nat) :
    List Nat :=
  if leaves = [] ∨ piece_length = 0 ∨ piece_count = 0 then []
  else piece_layers_loop leaves (cdiv piece_length LEAF_SIZE) piece_count 0

/-- The leaf-digest sequence `finalize` reads back (`hash_v2.rs` lines
51-62): flush a trailing partial leaf; if no leaf was ever written,
synthesize the single SHA-256(empty) leaf. -/
def V2Hasher.finalLeaves (h : V2Hasher) : List (List Nat) :=
  let h1 := if h.buffer = [] then h else h.flush_leaf
  if h1.leaves = [] then [sha256 []] else h1.leaves

/-- `V2Hasher::finalize` (`hash_v2.rs` lines 50-81): derive `piece_layers`
and `pieces_root` from the read-back leaves. With `piece_length = 0` and a
nonzero stream the Rust expression
`(total_bytes + piece_length as u64 - 1) / piece_length as u64` panics
(u64 underflow in debug builds, division by zero in release); that is
`none` here. -/
def V2Hasher.finalize (h : V2Hasher) (piece_length : Nat) : Option V2Summary :=
  if h.total_bytes = 0 then
    some ⟨merkle_root h.finalLeaves, []⟩
  else if piece_length = 0 then
    none
  else
    some ⟨merkle_root h.finalLeaves,
          build_piece_layers h.finalLeaves piece_length
            (cdiv h.total_bytes piece_length)⟩

/-- One-byte step of the leaf-filling loop (`total_bytes` untouched);
`updateLoop` on any chunk equals the fold of this step (proved below). -/
def V2Hasher.step (h : V2Hasher) (b : Nat) : V2Hasher :=
  let h1 : V2Hasher := { h with buffer := h.buffer ++ [b] }
  if h1.buffer.length = LEAF_SIZE then h1.flush_leaf else h1

theorem V2Hasher.step_total (h : V2Hasher) (b : Nat) :
    (h.step b).total_bytes = h.total_bytes := by
  unfold step flush_leaf
  dsimp only
  split <;> rfl

theorem V2Hasher.step_buffer_lt (h : V2Hasher) (b : Nat)
    (_hbuf : h.buffer.length < LEAF_SIZE) :
    (h.step b).buffer.length < LEAF_SIZE := by
  unfold step flush_leaf
  dsimp only
  split
  · simp [LEAF_SIZE]
  · next hne =>
      simp only [List.length_append, List.length_cons, List.length_nil] at hne ⊢
      simp only [LEAF_SIZE] at *
      omega

theorem V2Hasher.step_setTotal (h : V2Hasher) (b X : Nat) :
    ({ h with total_bytes := X } : V2Hasher).step b
      = { h.step b with total_bytes := X } := by
  unfold step flush_leaf
  dsimp only
  split <;> rfl

theorem V2Hasher.foldl_step_total (data : List Nat) :
    ∀ h : V2Hasher, (data.foldl V2Hasher.step h).total_bytes = h.total_bytes := by
  induction data with
  | nil => intro h; rfl
  | cons b rest ih => intro h; rw [List.foldl_cons, ih, V2Hasher.step_total]

theorem V2Hasher.foldl_step_buffer_lt (data : List Nat) :
    ∀ h : V2Hasher, h.buffer.length < LEAF_SIZE →
      (data.foldl V2Hasher.step h).buffer.length < LEAF_SIZE := by
  induction data with
  | nil => intro h hb; exact hb
  | cons b rest ih =>
      intro h hb
      exact ih _ (V2Hasher.step_buffer_lt h b hb)

theorem V2Hasher.foldl_step_setTotal (data : List Nat) :
    ∀ (h : V2Hasher) (X : Nat),
      data.foldl V2Hasher.step { h with total_bytes := X }
        = { data.foldl V2Hasher.step h with total_bytes := X } := by
  induction data with
  | nil => intro h X; rfl
  | cons b rest ih =>
      intro h X
      rw [List.foldl_cons, V2Hasher.step_setTotal, ih, List.foldl_cons]

theorem LEAF_SIZE_eq : LEAF_SIZE = 16384 := rfl

/-- Absorbing a chunk that stays strictly below the leaf boundary only
grows the leaf buffer. -/
theorem V2Hasher.foldl_step_no_flush (chunk : List Nat) :
    ∀ h : V2Hasher, h.buffer.length + chunk.length < LEAF_SIZE →
      chunk.foldl V2Hasher.step h = { h with buffer := h.buffer ++ chunk } := by
  induction chunk with
  | nil => intro h _; simp
  | cons b rest ih =>
      intro h hlt
      simp only [List.length_cons] at hlt
      have hcond : ¬ ((h.buffer ++ [b]).length = LEAF_SIZE) := by
        simp only [List.length_append, List.length_cons, List.length_nil]
        omega
      have hstep : h.step b = { h with buffer := h.buffer ++ [b] } := by
        unfold step; dsimp only; rw [if_neg hcond]
      rw [List.foldl_cons, hstep,
          ih _ (by simp only [List.length_append, List.length_cons, List.length_nil]; omega)]
      simp [V2Hasher.mk.injEq, List.append_assoc]

/-- Absorbing a chunk that lands exactly on the leaf boundary flushes one
leaf digest of everything buffered since the last boundary. -/
theorem V2Hasher.foldl_step_flush (chunk : List Nat) :
    ∀ h : V2Hasher, chunk ≠ [] → h.buffer.length + chunk.length = LEAF_SIZE →
      chunk.foldl V2Hasher.step h
        = ⟨[], h.leaves ++ [sha256 (h.buffer ++ chunk)], h.total_bytes⟩ := by
  induction chunk with
  | nil => intro h hne _; exact absurd rfl hne
  | cons b rest ih =>
      intro h _ heq
      simp only [List.length_cons] at heq
      rw [List.foldl_cons]
      by_cases hr : rest = []
      · subst hr
        simp only [List.length_nil] at heq
        have hcond : (h.buffer ++ [b]).length = LEAF_SIZE := by
          simp only [List.length_append, List.length_cons, List.length_nil]
          omega
        simp only [List.foldl_nil]
        unfold step flush_leaf
        dsimp only
        rw [if_pos hcond]
      · have hcond : ¬ ((h.buffer ++ [b]).length = LEAF_SIZE) := by
          have : rest.length ≠ 0 := fun hn => hr (List.eq_nil_of_length_eq_zero hn)
          simp only [List.length_append, List.length_cons, List.length_nil]
          omega
        have hstep : h.step b = { h with buffer := h.buffer ++ [b] } := by
          unfold step; dsimp only; rw [if_neg hcond]
        rw [hstep, ih _ hr (by
          simp only [List.length_append, List.length_cons, List.length_nil]
          omega)]
        simp [V2Hasher.mk.injEq, List.append_assoc]

theorem V2Hasher.updateLoop_nil (h : V2Hasher) : h.updateLoop [] = h := by
  rw [V2Hasher.updateLoop]
  simp

/-- The leaf-filling loop is the byte-by-byte fold. -/
theorem V2Hasher.updateLoop_eq_foldl_aux (n : Nat) :
    ∀ data : List Nat, data.length ≤ n → ∀ h : V2Hasher,
      h.buffer.length < LEAF_SIZE →
      h.updateLoop data = data.foldl V2Hasher.step h := by
  induction n with
  | zero =>
      intro data hlen h _
      have hd : data = [] := List.eq_nil_of_length_eq_zero (Nat.le_zero.mp hlen)
      subst hd
      rw [V2Hasher.updateLoop]
      simp
  | succ n ih =>
      intro data hlen h hc
      by_cases hd : data = []
      · subst hd; rw [V2Hasher.updateLoop]; simp
      · have hdlen : 0 < data.length := List.length_pos.mpr hd
        have htne : ¬ (min (LEAF_SIZE - h.buffer.length) data.length = 0) := by
          simp only [Nat.min_eq_zero_iff]
          omega
        rw [V2Hasher.updateLoop, dif_neg hd, dif_neg htne]
        dsimp only
        set t := min (LEAF_SIZE - h.buffer.length) data.length with htdef
        have ht1 : 1 ≤ t := Nat.one_le_iff_ne_zero.mpr htne
        have htle : t ≤ data.length := Nat.min_le_right _ _
        have hsplit : data = data.take t ++ data.drop t := (List.take_append_drop t data).symm
        have htake_len : (data.take t).length = t := List.length_take_of_le htle
        have hfold : data.foldl V2Hasher.step h
            = (data.drop t).foldl V2Hasher.step ((data.take t).foldl V2Hasher.step h) := by
          conv_lhs => rw [hsplit]
          rw [List.foldl_append]
        by_cases hcase : LEAF_SIZE - h.buffer.length ≤ data.length
        · -- the chunk fills the leaf buffer exactly: a flush happens
          have htval : t = LEAF_SIZE - h.buffer.length := by
            rw [htdef]; exact Nat.min_eq_left hcase
          have hboundary : h.buffer.length + t = LEAF_SIZE := by omega
          have hflushed : (data.take t).foldl V2Hasher.step h
              = ⟨[], h.leaves ++ [sha256 (h.buffer ++ data.take t)], h.total_bytes⟩ := by
            apply V2Hasher.foldl_step_flush
            · intro hnil
              rw [hnil] at htake_len
              simp at htake_len
              omega
            · rw [htake_len]; exact hboundary
          have hcond : (h.buffer ++ data.take t).length = LEAF_SIZE := by
            simp only [List.length_append, htake_len]
            exact hboundary
          rw [if_pos hcond]
          rw [hfold, hflushed]
          have hstate : V2Hasher.flush_leaf { h with buffer := h.buffer ++ data.take t }
              = ⟨[], h.leaves ++ [sha256 (h.buffer ++ data.take t)], h.total_bytes⟩ := rfl
          rw [hstate]
          apply ih
          · have : (data.drop t).length = data.length - t := by simp
            omega
          · simp [LEAF_SIZE]
        · -- the chunk ends strictly inside the leaf: no flush
          have htval : t = data.length := by
            rw [htdef]; exact Nat.min_eq_right (by omega)
          have hlt : h.buffer.length + t < LEAF_SIZE := by omega
          have hcond : ¬ ((h.buffer ++ data.take t).length = LEAF_SIZE) := by
            simp only [List.length_append, htake_len]
            omega
          rw [if_neg hcond]
          have hdrop : data.drop t = [] := by
            rw [htval]; exact List.drop_length data
          rw [hdrop, V2Hasher.updateLoop_nil]
          rw [hfold, hdrop, List.foldl_nil]
          rw [V2Hasher.foldl_step_no_flush _ _ (by rw [htake_len]; exact hlt)]

/-- `V2Hasher::update` in terms of the byte fold: bump `total_bytes` by the
chunk length and fold the leaf step. -/
theorem V2Hasher.update_eq_step_foldl (h : V2Hasher) (data : List Nat)
    (hc : h.buffer.length < LEAF_SIZE) :
    h.update data
      = { data.foldl V2Hasher.step h with
          total_bytes := h.total_bytes + data.length } := by
  unfold V2Hasher.update
  have haux := V2Hasher.updateLoop_eq_foldl_aux data.length data le_rfl
      { h with total_bytes := h.total_bytes + data.length } hc
  rw [haux, V2Hasher.foldl_step_setTotal]

/-- A fold of chunk-level `update`s equals the byte fold of the flattened
stream with `total_bytes` equal to the stream length added on top. -/
theorem V2Hasher.foldl_update_eq_step (cs : List (List Nat)) :
    ∀ h : V2Hasher, h.buffer.length < LEAF_SIZE →
      cs.foldl V2Hasher.update h
        = { cs.flatten.foldl V2Hasher.step h with
            total_bytes := h.total_bytes + cs.flatten.length } := by
  induction cs with
  | nil => intro h _; simp
  | cons c rest ih =>
      intro h hc
      rw [List.foldl_cons, V2Hasher.update_eq_step_foldl h c hc]
      rw [ih _ (by dsimp only; exact V2Hasher.foldl_step_buffer_lt c h hc)]
      rw [V2Hasher.foldl_step_setTotal]
      simp only [List.flatten_cons, List.foldl_append, List.length_append]
      simp [V2Hasher.mk.injEq]
      omega

/-! ### More ceiling-division facts -/

theorem cdiv_pos (a b : Nat) (ha : 0 < a) (hb : 0 < b) : 0 < cdiv a b := by
  unfold cdiv
  exact Nat.div_pos (by omega) hb

theorem cdiv_sub_step (a b : Nat) (ha : 0 < a) (hb : 0 < b) :
    cdiv a b = cdiv (a - b) b + 1 := by
  rcases Nat.lt_or_ge a (b + 1) with hle | hgt
  · have hab : a - b = 0 := by omega
    rw [hab]
    have h1 : cdiv a b = 1 := by
      rw [cdiv]
      have he : a + b - 1 = (a - 1) + b := by omega
      rw [he, Nat.add_div_right _ hb, Nat.div_eq_of_lt (by omega)]
    have h0 : cdiv 0 b = 0 := by
      rw [cdiv]
      simp only [Nat.zero_add]
      exact Nat.div_eq_of_lt (by omega)
    rw [h1, h0]
  · have h1 : cdiv a b = (a - 1) / b + 1 := by
      rw [cdiv]
      have he : a + b - 1 = (a - 1) + b := by omega
      rw [he, Nat.add_div_right _ hb]
    have h2 : cdiv (a - b) b = (a - b - 1) / b + 1 := by
      rw [cdiv]
      have he : a - b + b - 1 = (a - b - 1) + b := by omega
      rw [he, Nat.add_div_right _ hb]
    rw [h1, h2]
    have h3 : a - 1 = (a - b - 1) + b := by omega
    rw [h3, Nat.add_div_right _ hb]

theorem cdiv_le_iff (a b k : Nat) (hb : 0 < b) : cdiv a b ≤ k ↔ a ≤ b * k := by
  unfold cdiv
  rw [Nat.div_le_iff_le_mul_add_pred hb]
  omega

theorem cdiv_cdiv (a s m : Nat) (hs : 0 < s) (hm : 0 < m) :
    cdiv (cdiv a s) m = cdiv a (s * m) := by
  have hsm : 0 < s * m := Nat.mul_pos hs hm
  have key : ∀ k, cdiv (cdiv a s) m ≤ k ↔ cdiv a (s * m) ≤ k := by
    intro k
    rw [cdiv_le_iff _ _ _ hm, cdiv_le_iff _ _ _ hs, cdiv_le_iff _ _ _ hsm,
        Nat.mul_assoc]
  exact Nat.le_antisymm ((key _).mpr le_rfl) ((key _).mp le_rfl)

theorem cdiv_mul_self (s m : Nat) (hs : 0 < s) : cdiv (s * m) s = m := by
  rw [cdiv]
  have he : s * m + s - 1 = s * m + (s - 1) := by omega
  rw [he, Nat.mul_add_div hs, Nat.div_eq_of_lt (by omega), Nat.add_zero]

/-! ### Merkle-root digest lengths -/

theorem hash_pair_length (a b : List Nat) : (hash_pair a b).length = 32 :=
  sha256_length _

theorem pairChunks_all32 : ∀ l : List (List Nat), ∀ x ∈ pairChunks l, x.length = 32
  | [] => by simp [pairChunks]
  | [_] => by simp [pairChunks]
  | a :: b :: rest => by
      intro x hx
      simp only [pairChunks, List.mem_cons] at hx
      rcases hx with hx | hx
      · rw [hx]; exact hash_pair_length a b
      · exact pairChunks_all32 rest x hx

theorem merkle_loop_length_aux (n : Nat) :
    ∀ level : List (List Nat), level.length ≤ n → level ≠ [] →
      (∀ d ∈ level, d.length = 32) → (merkle_loop level).length = 32 := by
  induction n with
  | zero =>
      intro level hlen hne _
      exact absurd (List.eq_nil_of_length_eq_zero (Nat.le_zero.mp hlen)) hne
  | succ n ih =>
      intro level hlen hne h32
      rw [merkle_loop]
      split
      · next hle =>
          cases level with
          | nil => exact absurd rfl hne
          | cons d rest =>
              cases rest with
              | nil => simpa using h32 d (by simp)
              | cons e rest2 => simp at hle
      · next hgt =>
          have h2 : 2 ≤ level.length := by omega
          have hdlen :
              (if level.length % 2 = 1 then level ++ [level.getLastD []] else level).length
                = if level.length % 2 = 1 then level.length + 1 else level.length := by
            split <;> simp
          apply ih
          · rw [pairChunks_length, hdlen]
            split <;> omega
          · intro h0
            have : (pairChunks
                (if level.length % 2 = 1 then level ++ [level.getLastD []] else level)).length
                  = 0 := by rw [h0]; rfl
            rw [pairChunks_length, hdlen] at this
            split at this <;> omega
          · exact pairChunks_all32 _

theorem merkle_root_length_32 (nodes : List (List Nat))
    (h32 : ∀ d ∈ nodes, d.length = 32) : (merkle_root nodes).length = 32 := by
  unfold merkle_root
  split
  · exact sha256_length _
  · next hne => exact merkle_loop_length_aux nodes.length nodes le_rfl hne h32

theorem merkle_root_singleton (d : List Nat) : merkle_root [d] = d := by
  unfold merkle_root
  rw [if_neg (by simp), merkle_loop]
  simp

/-! ### The V2 leaf store across a stream -/

theorem V2Hasher.foldl_step_spec (data : List Nat) :
    ∀ h : V2Hasher, h.buffer.length < LEAF_SIZE →
      (data.foldl V2Hasher.step h).buffer.length
          = (h.buffer.length + data.length) % LEAF_SIZE
      ∧ (data.foldl V2Hasher.step h).leaves.length
          = h.leaves.length + (h.buffer.length + data.length) / LEAF_SIZE := by
  induction data with
  | nil =>
      intro h hc
      simp [Nat.mod_eq_of_lt hc, Nat.div_eq_of_lt hc]
  | cons b rest ih =>
      intro h hc
      have hLpos : 0 < LEAF_SIZE := by simp [LEAF_SIZE]
      rw [List.foldl_cons]
      by_cases hcond : (h.buffer ++ [b]).length = LEAF_SIZE
      · have hstep : h.step b
            = ⟨[], h.leaves ++ [sha256 (h.buffer ++ [b])], h.total_bytes⟩ := by
          unfold step flush_leaf; dsimp only; rw [if_pos hcond]
        rw [hstep]
        obtain ⟨ih1, ih2⟩ :=
          ih ⟨[], h.leaves ++ [sha256 (h.buffer ++ [b])], h.total_bytes⟩ hLpos
        simp only [List.length_append, List.length_cons, List.length_nil,
          Nat.zero_add] at ih1 ih2 hcond
        have harith : h.buffer.length + (rest.length + 1) = LEAF_SIZE + rest.length := by
          omega
        refine ⟨?_, ?_⟩
        · rw [ih1, List.length_cons, harith, Nat.add_mod_left]
        · rw [ih2, List.length_cons, harith, Nat.add_div_left _ hLpos]
          omega
      · have hstep : h.step b = { h with buffer := h.buffer ++ [b] } := by
          unfold step; dsimp only; rw [if_neg hcond]
        rw [hstep]
        obtain ⟨ih1, ih2⟩ := ih { h with buffer := h.buffer ++ [b] } (by
          dsimp only
          simp only [List.length_append, List.length_cons, List.length_nil] at hcond ⊢
          omega)
        simp only [List.length_append, List.length_cons, List.length_nil] at ih1 ih2
        have harith : h.buffer.length + 1 + rest.length
            = h.buffer.length + (rest.length + 1) := by omega
        rw [List.length_cons, ← harith]
        exact ⟨ih1, ih2⟩

theorem V2Hasher.foldl_step_leaves32 (data : List Nat) :
    ∀ h : V2Hasher, (∀ d ∈ h.leaves, d.length = 32) →
      ∀ d ∈ (data.foldl V2Hasher.step h).leaves, d.length = 32 := by
  induction data with
  | nil => intro h h32; exact h32
  | cons b rest ih =>
      intro h h32
      rw [List.foldl_cons]
      apply ih
      unfold step flush_leaf
      dsimp only
      split
      · intro d hd
        simp only [List.mem_append, List.mem_cons, List.not_mem_nil, or_false] at hd
        rcases hd with hd | hd
        · exact h32 d hd
        · rw [hd]; exact sha256_length _
      · exact h32

/-- The read-back leaf sequence at finalize time: for a stream of `L > 0`
bytes there are exactly `ceil(L / 16384)` leaves, all 32 bytes long. -/
theorem V2Hasher.finalLeaves_spec (s : V2Hasher) (L : Nat) (hL : 0 < L)
    (hbuf : s.buffer.length = L % LEAF_SIZE)
    (hleaves : s.leaves.length = L / LEAF_SIZE)
    (h32 : ∀ d ∈ s.leaves, d.length = 32) :
    s.finalLeaves.length = cdiv L LEAF_SIZE
    ∧ ∀ d ∈ s.finalLeaves, d.length = 32 := by
  have hLpos : 0 < LEAF_SIZE := by simp [LEAF_SIZE]
  unfold finalLeaves flush_leaf
  dsimp only
  by_cases hb : s.buffer = []
  · rw [if_pos hb]
    have hmod : L % LEAF_SIZE = 0 := by
      rw [← hbuf, hb]; rfl
    have hge : LEAF_SIZE ≤ L := by
      rcases Nat.lt_or_ge L LEAF_SIZE with hlt | hge
      · exact absurd (Nat.mod_eq_of_lt hlt) (by omega)
      · exact hge
    have hdivpos : 0 < L / LEAF_SIZE := Nat.div_pos hge hLpos
    have hne : ¬ (s.leaves = []) := by
      intro h0
      rw [h0] at hleaves
      simp at hleaves
      omega
    rw [if_neg hne]
    refine ⟨?_, h32⟩
    rw [hleaves, cdiv_eq _ _ hLpos, if_pos hmod]
    omega
  · rw [if_neg hb]
    have hblen : s.buffer.length ≠ 0 :=
      fun h0 => hb (List.eq_nil_of_length_eq_zero h0)
    have hmodpos : L % LEAF_SIZE ≠ 0 := by omega
    rw [if_neg (by simp)]
    constructor
    · simp only [List.length_append, List.length_cons, List.length_nil]
      rw [hleaves, cdiv_eq _ _ hLpos, if_neg hmodpos]
    · intro d hd
      simp only [List.mem_append, List.mem_cons, List.not_mem_nil, or_false] at hd
      rcases hd with hd | hd
      · exact h32 d hd
      · rw [hd]; exact sha256_length _

/-! ### Piece-layer sizes -/

theorem piece_layers_loop_length (leaves : List (List Nat)) (lpp : Nat)
    (hlpp : 0 < lpp) (h32 : ∀ d ∈ leaves, d.length = 32) :
    ∀ n index : Nat,
      (piece_layers_loop leaves lpp n index).length
        = 32 * min n (cdiv (leaves.length - index) lpp) := by
  intro n
  induction n with
  | zero => intro index; simp [piece_layers_loop]
  | succ n ih =>
      intro index
      rw [piece_layers_loop]
      by_cases hidx : leaves.length ≤ index
      · rw [if_pos hidx]
        have hz : leaves.length - index = 0 := by omega
        rw [hz]
        have hc0 : cdiv 0 lpp = 0 := by
          unfold cdiv
          simp only [Nat.zero_add]
          exact Nat.div_eq_of_lt (by omega)
        rw [hc0]
        simp
      · rw [if_neg hidx]
        push_neg at hidx
        dsimp only
        rw [List.length_append]
        have hroot :
            (merkle_root ((leaves.drop index).take
              (min (index + lpp) leaves.length - index))).length = 32 := by
          apply merkle_root_length_32
          intro d hd
          exact h32 d (List.drop_subset _ _ (List.take_subset _ _ hd))
        rw [hroot, ih (min (index + lpp) leaves.length)]
        have hstep : cdiv (leaves.length - index) lpp
            = cdiv (leaves.length - index - lpp) lpp + 1 :=
          cdiv_sub_step _ _ (by omega) hlpp
        have he : leaves.length - min (index + lpp) leaves.length
            = leaves.length - index - lpp := by omega
        rw [he, hstep, Nat.succ_min_succ]
        omega

theorem build_piece_layers_length (leaves : List (List Nat)) (pl pc : Nat)
    (hpl : 0 < pl) (hpc : 0 < pc) (hne : leaves ≠ [])
    (h32 : ∀ d ∈ leaves, d.length = 32) :
    (build_piece_layers leaves pl pc).length
      = 32 * min pc (cdiv leaves.length (cdiv pl LEAF_SIZE)) := by
  unfold build_piece_layers
  rw [if_neg (by
    push_neg
    exact ⟨hne, by omega, by omega⟩)]
  have hlpp : 0 < cdiv pl LEAF_SIZE := cdiv_pos _ _ hpl (by simp [LEAF_SIZE])
  rw [piece_layers_loop_length leaves _ hlpp h32 pc 0]
  simp

theorem V2Hasher.finalLeaves_setTotal (h : V2Hasher) (X : Nat) :
    ({ h with total_bytes := X } : V2Hasher).finalLeaves = h.finalLeaves := by
  unfold finalLeaves flush_leaf
  dsimp only
  by_cases hb : h.buffer = [] <;> simp [hb]

/-- `finalize` on any state with a nonzero byte total whose final leaf
sequence has the expected count: the `piece_layers` byte length is 32 per
emitted group root, `min(piece_count, ceil(leaf_count/leaves_per_piece))`
roots in all. -/
theorem V2Hasher.finalize_layers_of (st : V2Hasher) (pl : Nat) (hpl : 0 < pl)
    (htot : 0 < st.total_bytes)
    (hcount : st.finalLeaves.length = cdiv st.total_bytes LEAF_SIZE)
    (h32f : ∀ d ∈ st.finalLeaves, d.length = 32) :
    (st.finalize pl).map (fun s => s.piece_layers.length)
      = some (32 * min (cdiv st.total_bytes pl)
          (cdiv (cdiv st.total_bytes LEAF_SIZE) (cdiv pl LEAF_SIZE))) := by
  unfold V2Hasher.finalize
  rw [if_neg (by omega), if_neg (by omega)]
  simp only [Option.map_some']
  have hfne : st.finalLeaves ≠ [] := by
    intro h0
    rw [h0] at hcount
    have hpos := cdiv_pos st.total_bytes LEAF_SIZE htot (by simp [LEAF_SIZE])
    simp at hcount
    omega
  rw [build_piece_layers_length _ _ _ hpl (cdiv_pos _ _ htot hpl) hfne h32f, hcount]

/-- Chunk-level folding, with the resulting state written as an explicit
constructor. -/
theorem V2Hasher.foldl_update_eq_mk (cs : List (List Nat)) (h : V2Hasher)
    (hc : h.buffer.length < LEAF_SIZE) :
    cs.foldl V2Hasher.update h
      = ⟨(cs.flatten.foldl V2Hasher.step h).buffer,
         (cs.flatten.foldl V2Hasher.step h).leaves,
         h.total_bytes + cs.flatten.length⟩ := by
  rw [V2Hasher.foldl_update_eq_step cs h hc]

/-- The byte length of `piece_layers` for a nonzero chunked stream. -/
theorem V2Hasher.stream_finalize_layers (pl : Nat) (hpl : 0 < pl)
    (cs : List (List Nat)) (hL : 0 < cs.flatten.length) :
    ((cs.foldl V2Hasher.update V2Hasher.new).finalize pl).map
        (fun s => s.piece_layers.length)
      = some (32 * min (cdiv cs.flatten.length pl)
              (cdiv (cdiv cs.flatten.length LEAF_SIZE) (cdiv pl LEAF_SIZE))) := by
  have hb0 : (V2Hasher.new).buffer.length < LEAF_SIZE := by
    simp [V2Hasher.new, LEAF_SIZE]
  rw [V2Hasher.foldl_update_eq_mk cs _ hb0]
  obtain ⟨hbuf, hleaves⟩ := V2Hasher.foldl_step_spec cs.flatten V2Hasher.new hb0
  have h32 := V2Hasher.foldl_step_leaves32 cs.flatten V2Hasher.new
    (by intro d hd; simp [V2Hasher.new] at hd)
  simp only [V2Hasher.new, List.length_nil, Nat.zero_add] at hbuf hleaves
  obtain ⟨hcount, h32f⟩ :=
    V2Hasher.finalLeaves_spec (cs.flatten.foldl V2Hasher.step V2Hasher.new)
      cs.flatten.length hL hbuf hleaves h32
  have hmain := V2Hasher.finalize_layers_of
    ⟨(cs.flatten.foldl V2Hasher.step V2Hasher.new).buffer,
     (cs.flatten.foldl V2Hasher.step V2Hasher.new).leaves,
     V2Hasher.new.total_bytes + cs.flatten.length⟩ pl hpl
    (by show 0 < V2Hasher.new.total_bytes + cs.flatten.length
        simpa [V2Hasher.new] using hL)
    (by simpa [V2Hasher.finalLeaves_setTotal, V2Hasher.new] using hcount)
    (by simpa [V2Hasher.finalLeaves_setTotal] using h32f)
  simpa [V2Hasher.new] using hmain

theorem cdiv_zero (b : Nat) : cdiv 0 b = 0 := by
  rcases Nat.eq_zero_or_pos b with hb | hb
  · subst hb; simp [cdiv]
  · unfold cdiv
    simp only [Nat.zero_add]
    exact Nat.div_eq_of_lt (by omega)

/-- Feeding nothing (or only empty chunks) and finalizing: the synthetic
empty leaf makes the summary `⟨SHA-256(empty), empty⟩`. -/
theorem V2Hasher.stream_finalize_empty (pl : Nat) (cs : List (List Nat))
    (hL : cs.flatten = []) :
    (cs.foldl V2Hasher.update V2Hasher.new).finalLeaves = [sha256 []]
    ∧ (cs.foldl V2Hasher.update V2Hasher.new).finalize pl
        = some ⟨sha256 [], []⟩ := by
  have hb0 : (V2Hasher.new).buffer.length < LEAF_SIZE := by
    simp [V2Hasher.new, LEAF_SIZE]
  rw [V2Hasher.foldl_update_eq_mk cs _ hb0, hL]
  simp only [List.foldl_nil, List.length_nil, Nat.add_zero]
  constructor
  · unfold V2Hasher.finalLeaves
    simp [V2Hasher.new]
  · unfold V2Hasher.finalize V2Hasher.finalLeaves
    simp [V2Hasher.new, merkle_root_singleton]

/-! ### The reference Merkle-root definition, written from the spec -/

/-- Modelled from the spec: `merkle_root(leaves)`: empty → SHA-256 of the
empty string; exactly one node → that node unchanged, no re-hash;
otherwise repeat: if the current level has an odd count greater than one,
duplicate the last node; pair adjacent nodes into SHA256(left‖right);
continue until one node remains. -/
def merkleRootSpec (leaves : List (List Nat)) : List Nat :=
  if _h1 : leaves = [] then sha256 []
  else if _h2 : leaves.length = 1 then leaves.headD []
  else
    merkleRootSpec (pairChunks
      (if leaves.length % 2 = 1 then leaves ++ [leaves.getLastD []] else leaves))
termination_by leaves.length
decreasing_by
  rw [pairChunks_length]
  have hlen : leaves.length ≠ 0 := fun hn => _h1 (List.eq_nil_of_length_eq_zero hn)
  split <;> simp <;> omega

theorem merkle_root_eq_spec_aux (n : Nat) :
    ∀ nodes : List (List Nat), nodes.length ≤ n →
      merkle_root nodes = merkleRootSpec nodes := by
  induction n with
  | zero =>
      intro nodes hlen
      have hd : nodes = [] := List.eq_nil_of_length_eq_zero (Nat.le_zero.mp hlen)
      subst hd
      rw [merkle_root, merkleRootSpec]
      simp
  | succ n ih =>
      intro nodes hlen
      by_cases hnil : nodes = []
      · subst hnil
        rw [merkle_root, merkleRootSpec]
        simp
      · by_cases hone : nodes.length = 1
        · obtain ⟨x, hx⟩ : ∃ x, nodes = [x] := by
            cases nodes with
            | nil => simp at hone
            | cons a rest =>
                cases rest with
                | nil => exact ⟨a, rfl⟩
                | cons b r2 => simp at hone
          subst hx
          rw [merkle_root, merkleRootSpec, merkle_loop]
          simp
        · have h2 : 2 ≤ nodes.length := by
            have : nodes.length ≠ 0 := fun hn => hnil (List.eq_nil_of_length_eq_zero hn)
            omega
          rw [merkle_root, if_neg hnil, merkle_loop, dif_neg (by omega),
              merkleRootSpec, dif_neg hnil, dif_neg hone]
          set next := pairChunks
            (if nodes.length % 2 = 1 then nodes ++ [nodes.getLastD []] else nodes)
            with hnext
          have hnextlen : next.length ≤ n := by
            rw [hnext, pairChunks_length]
            split <;>
              (try simp only [List.length_append, List.length_cons, List.length_nil]) <;>
              omega
          have hnextne : next ≠ [] := by
            intro h0
            have hz : next.length = 0 := by rw [h0]; rfl
            rw [hnext, pairChunks_length] at hz
            split at hz <;>
              (try simp only [List.length_append, List.length_cons, List.length_nil] at hz) <;>
              omega
          have := ih next hnextlen
          rw [merkle_root, if_neg hnextne] at this
          exact this

/-- The source `merkle_root` loop computes exactly the spec recursion. -/
theorem merkle_root_eq_spec (nodes : List (List Nat)) :
    merkle_root nodes = merkleRootSpec nodes :=
  merkle_root_eq_spec_aux nodes.length nodes le_rfl

/-! ## Claim theorems: hashing -/

/-- C2: `merkle_root` equals the reference Merkle definition: SHA-256 of
the empty string for an empty node list; a one-element list returns that
element unchanged with no further hashing; otherwise the last node of any
odd-count level (count > 1) is duplicated, adjacent pairs are replaced by
SHA256(left ‖ right), until a single node remains. -/
theorem c2_merkle_root_matches_reference (nodes : List (List Nat)) :
    merkle_root nodes = merkleRootSpec nodes :=
  merkle_root_eq_spec nodes

/-- C3: for every `piece_length > 0` and every sequence of `update` calls,
the byte sequence `V1Hasher::finalize` returns has length divisible by 20,
holds exactly `ceil(L / piece_length)` 20-byte digests for a stream of
`L > 0` bytes, and is empty for `L = 0`. -/
theorem c3_v1_pieces_count (pl : Nat) (hpl : 0 < pl) (cs : List (List Nat)) :
    ((cs.foldl V1Hasher.update (V1Hasher.new pl)).finalize).length % 20 = 0
    ∧ (0 < cs.flatten.length →
        ((cs.foldl V1Hasher.update (V1Hasher.new pl)).finalize).length
          = 20 * cdiv cs.flatten.length pl)
    ∧ (cs.flatten.length = 0 →
        ((cs.foldl V1Hasher.update (V1Hasher.new pl)).finalize).length = 0) := by
  have h := V1Hasher.stream_pieces_length pl hpl cs
  refine ⟨by rw [h]; exact Nat.mul_mod_right 20 _, fun _ => h, fun hL => ?_⟩
  rw [h, hL, cdiv_zero]

theorem c3_v1_pieces_count_witness :
    (0 < 2 ∧
      ((([[5, 6, 7]] : List (List Nat)).foldl V1Hasher.update
          (V1Hasher.new 2)).finalize).length % 20 = 0
    ∧ (0 < ([[5, 6, 7]] : List (List Nat)).flatten.length →
        ((([[5, 6, 7]] : List (List Nat)).foldl V1Hasher.update
            (V1Hasher.new 2)).finalize).length
          = 20 * cdiv ([[5, 6, 7]] : List (List Nat)).flatten.length 2)
    ∧ (([[5, 6, 7]] : List (List Nat)).flatten.length = 0 →
        ((([[5, 6, 7]] : List (List Nat)).foldl V1Hasher.update
            (V1Hasher.new 2)).finalize).length = 0)) :=
  ⟨by decide, c3_v1_pieces_count 2 (by decide) [[5, 6, 7]]⟩

/-- C5: each hasher's state after `update` depends only on the
concatenation of the bytes fed, not the chunking: `update (a ++ b)` equals
`update a` followed by `update b` (from any in-invariant state, in
particular any reachable one), and consequently a fold of chunk updates
from a fresh hasher equals one `update` of the flattened stream. -/
theorem c5_update_chunking_invariance :
    (∀ h : V1Hasher, h.current_len < h.piece_length →
      ∀ a b : List Nat, h.update (a ++ b) = (h.update a).update b)
    ∧ (∀ h : V2Hasher, h.buffer.length < LEAF_SIZE →
      ∀ a b : List Nat, h.update (a ++ b) = (h.update a).update b)
    ∧ (∀ pl : Nat, 0 < pl → ∀ cs : List (List Nat),
        cs.foldl V1Hasher.update (V1Hasher.new pl)
          = (V1Hasher.new pl).update cs.flatten)
    ∧ (∀ cs : List (List Nat),
        cs.foldl V2Hasher.update V2Hasher.new
          = V2Hasher.new.update cs.flatten) := by
  refine ⟨?_, ?_, ?_, ?_⟩
  · intro h hc a b
    have hpl : 0 < h.piece_length := by omega
    rw [V1Hasher.update_eq_foldl h (a ++ b) hc, List.foldl_append,
        V1Hasher.update_eq_foldl h a hc,
        V1Hasher.update_eq_foldl (a.foldl V1Hasher.update1 h) b
          (V1Hasher.foldl_update1_current_lt a h hpl hc)]
  · intro h hbuf a b
    have h2 := V2Hasher.update_eq_step_foldl h a hbuf
    have hinv : (h.update a).buffer.length < LEAF_SIZE := by
      rw [h2]
      exact V2Hasher.foldl_step_buffer_lt a h hbuf
    rw [V2Hasher.update_eq_step_foldl h (a ++ b) hbuf,
        V2Hasher.update_eq_step_foldl (h.update a) b hinv, h2]
    simp only [V2Hasher.foldl_step_setTotal, List.foldl_append, List.length_append]
    simp [V2Hasher.mk.injEq]
    omega
  · intro pl hpl cs
    have hc0 : (V1Hasher.new pl).current_len < (V1Hasher.new pl).piece_length := by
      simpa [V1Hasher.new] using hpl
    rw [V1Hasher.foldl_update_eq cs _ hc0, V1Hasher.update_eq_foldl _ _ hc0]
  · intro cs
    have hb0 : (V2Hasher.new).buffer.length < LEAF_SIZE := by
      simp [V2Hasher.new, LEAF_SIZE]
    rw [V2Hasher.foldl_update_eq_step cs _ hb0, V2Hasher.update_eq_step_foldl _ _ hb0]

theorem c5_update_chunking_invariance_witness :
    ((V1Hasher.new 2).current_len < (V1Hasher.new 2).piece_length
      ∧ (V1Hasher.new 2).update ([1] ++ [2, 3])
          = ((V1Hasher.new 2).update [1]).update [2, 3])
    ∧ ((V2Hasher.new).buffer.length < LEAF_SIZE
      ∧ V2Hasher.new.update ([9] ++ [8])
          = (V2Hasher.new.update [9]).update [8]) :=
  ⟨⟨by decide, c5_update_chunking_invariance.1 (V1Hasher.new 2) (by decide) [1] [2, 3]⟩,
   ⟨by decide, c5_update_chunking_invariance.2.1 V2Hasher.new (by decide) [9] [8]⟩⟩

/-- C6: for a stream of total length 0 (nothing fed, or only empty
chunks), `finalize` synthesizes exactly one leaf equal to SHA-256 of the
empty string, returns empty `piece_layers`, and `pieces_root` is the
Merkle root over that single synthetic leaf, i.e. the leaf unchanged. -/
theorem c6_empty_stream (pl : Nat) (cs : List (List Nat))
    (hcs : ∀ c ∈ cs, c = []) :
    (cs.foldl V2Hasher.update V2Hasher.new).finalLeaves = [sha256 []]
    ∧ (cs.foldl V2Hasher.update V2Hasher.new).finalize pl
        = some ⟨merkle_root [sha256 []], []⟩
    ∧ merkle_root [sha256 []] = sha256 [] := by
  have hflat : cs.flatten = [] := by
    induction cs with
    | nil => rfl
    | cons c rest ih =>
        rw [List.flatten_cons, hcs c (by simp),
            ih (fun x hx => hcs x (by simp [hx]))]
        rfl
  obtain ⟨h1, h2⟩ := V2Hasher.stream_finalize_empty pl cs hflat
  exact ⟨h1, by rw [h2, merkle_root_singleton], merkle_root_singleton _⟩

theorem c6_empty_stream_witness :
    (∀ c ∈ ([[], []] : List (List Nat)), c = [])
    ∧ (([[], []] : List (List Nat)).foldl V2Hasher.update
          V2Hasher.new).finalLeaves = [sha256 []]
    ∧ (([[], []] : List (List Nat)).foldl V2Hasher.update
          V2Hasher.new).finalize 7 = some ⟨merkle_root [sha256 []], []⟩
    ∧ merkle_root [sha256 []] = sha256 [] := by
  refine ⟨by decide, ?_⟩
  exact c6_empty_stream 7 [[], []] (by decide)

/-- C10: the embedded `finalize` is total whenever `piece_length ≥ 1` (the
ceiling division's divisor is nonzero and it is only reached with
`total_bytes > 0`); with `piece_length = 0` and at least one streamed
byte, the piece-count arithmetic panics (division by zero — `none`). -/
theorem c10_finalize_piece_length_precondition :
    (∀ (h : V2Hasher) (pl : Nat), 1 ≤ pl → (h.finalize pl).isSome = true)
    ∧ (V2Hasher.new.update [0]).finalize 0 = none := by
  constructor
  · intro h pl hpl
    unfold V2Hasher.finalize
    split
    · rfl
    · rw [if_neg (by omega)]
      rfl
  · have hb0 : (V2Hasher.new).buffer.length < LEAF_SIZE := by
      simp [V2Hasher.new, LEAF_SIZE]
    rw [V2Hasher.update_eq_step_foldl _ _ hb0]
    unfold V2Hasher.finalize
    simp [V2Hasher.new]

theorem c10_finalize_piece_length_precondition_witness :
    (1 ≤ 1 ∧ ((V2Hasher.new).finalize 1).isSome = true)
    ∧ (V2Hasher.new.update [0]).finalize 0 = none :=
  ⟨⟨by decide, c10_finalize_piece_length_precondition.1 V2Hasher.new 1 (by decide)⟩,
   c10_finalize_piece_length_precondition.2⟩

/-- C1 fails as stated: two bytes at `piece_length = 1` make
`ceil(L/piece_length) = 2` pieces but only one 32-byte group root is
emitted, because the single leaf is exhausted after the first group. -/
theorem c1_counterexample :
    ((V2Hasher.new.update [0, 0]).finalize 1).map (fun s => s.piece_layers.length)
      = some 32
    ∧ (32 : Nat) ≠ 32 * cdiv 2 1 := by
  constructor
  · have h := V2Hasher.stream_finalize_layers 1 (by norm_num) [[0, 0]] (by simp)
    have hfold : List.foldl V2Hasher.update V2Hasher.new [[0, 0]]
        = V2Hasher.new.update [0, 0] := by
      simp only [List.foldl_cons, List.foldl_nil]
    have hflat : ([[0, 0]] : List (List Nat)).flatten = [0, 0] := by simp
    rw [hfold, hflat] at h
    rw [h]
    norm_num [cdiv, LEAF_SIZE]
  · norm_num [cdiv]

/-- C1 (amended): for a stream of `L` bytes the `piece_layers` byte length
is `32 * min(ceil(L/piece_length), ceil(ceil(L/16384)/ceil(piece_length/16384)))`
when `L > 0` (the loop stops early once the leaves are exhausted), is `0`
when `L = 0`, and when `piece_length` is a multiple of 16384 — every piece
length the program itself chooses — the two arguments of `min` coincide,
giving exactly `32 * ceil(L/piece_length)`. -/
theorem c1_piece_layers_length (pl : Nat) (hpl : 0 < pl) (cs : List (List Nat)) :
    (0 < cs.flatten.length →
      ((cs.foldl V2Hasher.update V2Hasher.new).finalize pl).map
          (fun s => s.piece_layers.length)
        = some (32 * min (cdiv cs.flatten.length pl)
            (cdiv (cdiv cs.flatten.length LEAF_SIZE) (cdiv pl LEAF_SIZE))))
    ∧ (cs.flatten.length = 0 →
      ((cs.foldl V2Hasher.update V2Hasher.new).finalize pl).map
          (fun s => s.piece_layers.length) = some 0)
    ∧ (0 < cs.flatten.length → pl % LEAF_SIZE = 0 →
      ((cs.foldl V2Hasher.update V2Hasher.new).finalize pl).map
          (fun s => s.piece_layers.length)
        = some (32 * cdiv cs.flatten.length pl)) := by
  refine ⟨fun hL => V2Hasher.stream_finalize_layers pl hpl cs hL, fun hL => ?_, ?_⟩
  · have hflat := List.eq_nil_of_length_eq_zero hL
    obtain ⟨_, h2⟩ := V2Hasher.stream_finalize_empty pl cs hflat
    rw [h2]
    rfl
  · intro hL hdvd
    rw [V2Hasher.stream_finalize_layers pl hpl cs hL]
    have hLpos : 0 < LEAF_SIZE := by simp [LEAF_SIZE]
    have hm : LEAF_SIZE * (pl / LEAF_SIZE) = pl :=
      Nat.mul_div_cancel' (Nat.dvd_of_mod_eq_zero hdvd)
    have hmpos : 0 < pl / LEAF_SIZE := by
      rcases Nat.eq_zero_or_pos (pl / LEAF_SIZE) with h0 | h0
      · rw [h0, Nat.mul_zero] at hm; omega
      · exact h0
    have h1 : cdiv pl LEAF_SIZE = pl / LEAF_SIZE := by
      conv_lhs => rw [← hm]
      rw [cdiv_mul_self _ _ hLpos]
    have h2 : cdiv (cdiv cs.flatten.length LEAF_SIZE) (pl / LEAF_SIZE)
        = cdiv cs.flatten.length pl := by
      rw [cdiv_cdiv _ _ _ hLpos hmpos, hm]
    rw [h1, h2, Nat.min_self]

theorem c1_piece_layers_length_witness :
    0 < 16384 ∧
    ((0 < ([[1]] : List (List Nat)).flatten.length →
      ((([[1]] : List (List Nat)).foldl V2Hasher.update V2Hasher.new).finalize
            16384).map (fun s => s.piece_layers.length)
        = some (32 * min (cdiv ([[1]] : List (List Nat)).flatten.length 16384)
            (cdiv (cdiv ([[1]] : List (List Nat)).flatten.length LEAF_SIZE)
              (cdiv 16384 LEAF_SIZE))))
    ∧ (([[1]] : List (List Nat)).flatten.length = 0 →
      ((([[1]] : List (List Nat)).foldl V2Hasher.update V2Hasher.new).finalize
            16384).map (fun s => s.piece_layers.length) = some 0)
    ∧ (0 < ([[1]] : List (List Nat)).flatten.length → 16384 % LEAF_SIZE = 0 →
      ((([[1]] : List (List Nat)).foldl V2Hasher.update V2Hasher.new).finalize
            16384).map (fun s => s.piece_layers.length)
        = some (32 * cdiv ([[1]] : List (List Nat)).flatten.length 16384))) :=
  ⟨by decide, c1_piece_layers_length 16384 (by decide) [[1]]⟩

/-! ## Bencode values and the metainfo assembler (src/metainfo.rs)

`bendy::value::Value` is the `Bencode` inductive; the `BTreeMap` used for
dictionaries is a byte-sorted association list built by `insertSorted`
(the `BTreeMap::insert` of each source statement, in source order), so
serialization just walks the list. Strings are byte lists; `key` converts
a string literal. -/

inductive Bencode where
  | int (i : Int)
  | bytes (s : List Nat)
  | list (xs : List Bencode)
  | dict (kvs : List (List Nat × Bencode))
deriving Repr

/-- Byte-lexicographic strict order on byte strings (the `Ord` instance of
`Vec<u8>` keys in the `BTreeMap`). -/
def byteLt : List Nat → List Nat → Bool
  | [], [] => false
  | [], _ :: _ => true
  | _ :: _, [] => false
  | a :: as, b :: bs =>
      if a < b then true else if b < a then false else byteLt as bs

/-- `BTreeMap::insert` on the sorted association list: insert before the
first larger key, replacing an equal key. -/
def insertSorted (k : List Nat) (v : Bencode) :
    List (List Nat × Bencode) → List (List Nat × Bencode)
  | [] => [(k, v)]
  | (k2, v2) :: rest =>
      if byteLt k k2 then (k, v) :: (k2, v2) :: rest
      else if k = k2 then (k, v) :: rest
      else (k2, v2) :: insertSorted k v rest

/-- `key` (`metainfo.rs` lines 171-173): the bytes of a string. -/
def key (input : String) : List Nat := input.toList.map Char.toNat

/-- ASCII decimal digits of a natural number. -/
def encodeNat (n : Nat) : List Nat := (Nat.toDigits 10 n).map Char.toNat

/-- Bencode integer payload: optional minus sign and decimal digits. -/
def encodeInt (i : Int) : List Nat :=
  if i < 0 then 45 :: encodeNat i.natAbs else encodeNat i.natAbs

mutual

/-- Canonical bencode serialization (`bendy`'s `to_bencode` on `Value`):
`i<decimal>e`, `<len>:<bytes>`, `l<items>e`, `d<key><value>...e`. -/
def bencode : Bencode → List Nat
  | .int i => 105 :: (encodeInt i ++ [101])
  | .bytes s => encodeNat s.length ++ 58 :: s
  | .list xs => 108 :: (bencodeItems xs ++ [101])
  | .dict kvs => 100 :: (bencodeEntries kvs ++ [101])

def bencodeItems : List Bencode → List Nat
  | [] => []
  | x :: xs => bencode x ++ bencodeItems xs

def bencodeEntries : List (List Nat × Bencode) → List Nat
  | [] => []
  | (k, v) :: rest =>
      (encodeNat k.length ++ 58 :: k) ++ bencode v ++ bencodeEntries rest

end

/-- `BuildInput` (`metainfo.rs` lines 12-23). -/
structure BuildInput where
  name : List Nat
  length : Nat
  piece_length : Nat
  pieces : List Nat
  trackers : List (List Nat)
  webseeds : List (List Nat)
  creation_date : Int
  created_by : List Nat
  v2 : Option V2Summary

/-- `Metainfo` (`metainfo.rs` lines 25-30). -/
structure Metainfo where
  torrent : List Nat
  infohash_v1 : Option (List Nat)
  infohash_v2 : Option (List Nat)

/-- `i64_from_u64` (`metainfo.rs` lines 175-177): checked narrowing of a
`u64` into `i64`; fails above `i64::MAX = 2^63 - 1`. -/
def i64_from_u64 (value : Nat) : Except String Int :=
  if value < 9223372036854775808 then Except.ok (Int.ofNat value)
  else Except.error "value exceeds i64 range"

/-- `info_v1_map` (`metainfo.rs` lines 122-132). -/
def info_v1_map (input : BuildInput) :
    Except String (List (List Nat × Bencode)) := do
  let d0 : List (List Nat × Bencode) := []
  let d1 := insertSorted (key "length") (Bencode.int (← i64_from_u64 input.length)) d0
  let d2 := insertSorted (key "name") (Bencode.bytes input.name) d1
  let d3 := insertSorted (key "piece length")
    (Bencode.int (Int.ofNat input.piece_length)) d2
  let d4 := insertSorted (key "pieces") (Bencode.bytes input.pieces) d3
  pure d4

/-- `build_file_tree` (`metainfo.rs` lines 147-159): the v2 file-tree
`{name → {"" → {length, pieces root}}}`. -/
def build_file_tree (input : BuildInput) (v2 : V2Summary) :
    Except String Bencode := do
  let l0 : List (List Nat × Bencode) := []
  let l1 := insertSorted (key "length") (Bencode.int (← i64_from_u64 input.length)) l0
  let l2 := insertSorted (key "pieces root") (Bencode.bytes v2.pieces_root) l1
  let file_entry := insertSorted [] (Bencode.dict l2) []
  let tree := insertSorted input.name (Bencode.dict file_entry) []
  pure (Bencode.dict tree)

/-- `build_piece_layers` of `metainfo.rs` (lines 161-165; renamed to avoid
the `hash_v2.rs` function of the same name): `{pieces_root → layers}`. -/
def build_piece_layers_dict (v2 : V2Summary) : Bencode :=
  Bencode.dict (insertSorted v2.pieces_root (Bencode.bytes v2.piece_layers) [])

/-- `info_v2_map` (`metainfo.rs` lines 134-145). -/
def info_v2_map (input : BuildInput) (v2 : V2Summary) :
    Except String (List (List Nat × Bencode)) := do
  let d0 : List (List Nat × Bencode) := []
  let d1 := insertSorted (key "meta version") (Bencode.int 2) d0
  let d2 := insertSorted (key "name") (Bencode.bytes input.name) d1
  let d3 := insertSorted (key "piece length")
    (Bencode.int (Int.ofNat input.piece_length)) d2
  let d4 := insertSorted (key "file tree") (← build_file_tree input v2) d3
  let d5 := insertSorted (key "piece layers") (build_piece_layers_dict v2) d4
  pure d5

/-- `BTreeMap::extend` (`metainfo.rs` line 106): insert every entry of the
other map. -/
def dict_extend (base other : List (List Nat × Bencode)) :
    List (List Nat × Bencode) :=
  other.foldl (fun acc kv => insertSorted kv.1 kv.2 acc) base

/-- `build_info_full` (`metainfo.rs` lines 103-109). -/
def build_info_full (input : BuildInput) : Except String Bencode := do
  let dict ← info_v1_map input
  match input.v2 with
  | some v2 => pure (Bencode.dict (dict_extend dict (← info_v2_map input v2)))
  | none => pure (Bencode.dict dict)

/-- `build_info_v1` (`metainfo.rs` lines 111-113). -/
def build_info_v1 (input : BuildInput) : Except String Bencode := do
  pure (Bencode.dict (← info_v1_map input))

/-- `build_info_v2` (`metainfo.rs` lines 115-120). -/
def build_info_v2 (input : BuildInput) : Except String Bencode :=
  match input.v2 with
  | some v2 => do pure (Bencode.dict (← info_v2_map input v2))
  | none => pure (Bencode.dict [])

/-- `build_torrent_root` (`metainfo.rs` lines 73-101); `trackers[0]` is
modelled by `headD` (the caller has already rejected an empty list). -/
def build_torrent_root (input : BuildInput) (info : Bencode) : List Nat :=
  let r0 : List (List Nat × Bencode) := []
  let r1 := insertSorted (key "announce") (Bencode.bytes (input.trackers.headD [])) r0
  let announce_tier := input.trackers.map Bencode.bytes
  let r2 := insertSorted (key "announce-list")
    (Bencode.list [Bencode.list announce_tier]) r1
  let r3 := insertSorted (key "created by") (Bencode.bytes input.created_by) r2
  let r4 := insertSorted (key "creation date") (Bencode.int input.creation_date) r3
  let r5 := insertSorted (key "info") info r4
  let webseed_list := input.webseeds.map Bencode.bytes
  let r6 := insertSorted (key "url-list") (Bencode.list webseed_list) r5
  bencode (Bencode.dict r6)

/-- `build` (`metainfo.rs` lines 34-71). -/
def build (input : BuildInput) : Except String Metainfo :=
  if input.trackers = [] then Except.error "At least one tracker is required"
  else do
    let info_full ← build_info_full input
    let infoV1 ← build_info_v1 input
    let infoV2 ← build_info_v2 input
    let infohash_v1 := some (sha1 (bencode infoV1))
    let infohash_v2 :=
      if input.v2.isSome then some (sha256 (bencode infoV2)) else none
    let torrent := build_torrent_root input info_full
    pure ⟨torrent, infohash_v1, infohash_v2⟩

/-! ### Evaluated dictionary forms

The sorted association lists the `BTreeMap` inserts produce, written out
explicitly (keys in ascending byte order). -/

/-- The v1 info dictionary `{length, name, piece length, pieces}`. -/
def v1InfoList (input : BuildInput) : List (List Nat × Bencode) :=
  [(key "length", Bencode.int (Int.ofNat input.length)),
   (key "name", Bencode.bytes input.name),
   (key "piece length", Bencode.int (Int.ofNat input.piece_length)),
   (key "pieces", Bencode.bytes input.pieces)]

/-- The v2 file tree `{name → {"" → {length, pieces root}}}`. -/
def fileTreeValue (input : BuildInput) (v2 : V2Summary) : Bencode :=
  Bencode.dict [(input.name, Bencode.dict [([], Bencode.dict
    [(key "length", Bencode.int (Int.ofNat input.length)),
     (key "pieces root", Bencode.bytes v2.pieces_root)])])]

/-- The v2 info dictionary
`{file tree, meta version, name, piece layers, piece length}`. -/
def v2InfoList (input : BuildInput) (v2 : V2Summary) :
    List (List Nat × Bencode) :=
  [(key "file tree", fileTreeValue input v2),
   (key "meta version", Bencode.int 2),
   (key "name", Bencode.bytes input.name),
   (key "piece layers", build_piece_layers_dict v2),
   (key "piece length", Bencode.int (Int.ofNat input.piece_length))]

/-- The combined info dictionary: the union of the v1 and v2 key sets. -/
def fullInfoList (input : BuildInput) (v2 : V2Summary) :
    List (List Nat × Bencode) :=
  [(key "file tree", fileTreeValue input v2),
   (key "length", Bencode.int (Int.ofNat input.length)),
   (key "meta version", Bencode.int 2),
   (key "name", Bencode.bytes input.name),
   (key "piece layers", build_piece_layers_dict v2),
   (key "piece length", Bencode.int (Int.ofNat input.piece_length)),
   (key "pieces", Bencode.bytes input.pieces)]

/-- The root document dictionary. -/
def rootList (input : BuildInput) (info : Bencode) : List (List Nat × Bencode) :=
  [(key "announce", Bencode.bytes (input.trackers.headD [])),
   (key "announce-list", Bencode.list [Bencode.list (input.trackers.map Bencode.bytes)]),
   (key "created by", Bencode.bytes input.created_by),
   (key "creation date", Bencode.int input.creation_date),
   (key "info", info),
   (key "url-list", Bencode.list (input.webseeds.map Bencode.bytes))]

theorem except_bind_ok {α β : Type} (a : α) (f : α → Except String β) :
    (Except.ok a : Except String α) >>= f = f a := rfl

theorem info_v1_map_eval (input : BuildInput)
    (hlen : input.length < 9223372036854775808) :
    info_v1_map input = Except.ok (v1InfoList input) := by
  simp [info_v1_map, i64_from_u64, hlen, insertSorted, key, byteLt,
    except_bind_ok, v1InfoList]

theorem build_file_tree_eval (input : BuildInput) (v2 : V2Summary)
    (hlen : input.length < 9223372036854775808) :
    build_file_tree input v2 = Except.ok (fileTreeValue input v2) := by
  simp [build_file_tree, i64_from_u64, hlen, insertSorted, key, byteLt,
    except_bind_ok, fileTreeValue]

theorem info_v2_map_eval (input : BuildInput) (v2 : V2Summary)
    (hlen : input.length < 9223372036854775808) :
    info_v2_map input v2 = Except.ok (v2InfoList input v2) := by
  simp [info_v2_map, build_file_tree_eval input v2 hlen, insertSorted, key,
    byteLt, except_bind_ok, v2InfoList]

theorem dict_extend_eval (input : BuildInput) (v2 : V2Summary) :
    dict_extend (v1InfoList input) (v2InfoList input v2)
      = fullInfoList input v2 := by
  simp [dict_extend, insertSorted, key, byteLt, v1InfoList, v2InfoList,
    fullInfoList]

theorem build_info_full_eval_none (input : BuildInput)
    (hlen : input.length < 9223372036854775808) (hv2 : input.v2 = none) :
    build_info_full input = Except.ok (Bencode.dict (v1InfoList input)) := by
  simp [build_info_full, info_v1_map_eval input hlen, hv2, except_bind_ok]

theorem build_info_full_eval_some (input : BuildInput) (v2 : V2Summary)
    (hlen : input.length < 9223372036854775808) (hv2 : input.v2 = some v2) :
    build_info_full input = Except.ok (Bencode.dict (fullInfoList input v2)) := by
  simp [build_info_full, info_v1_map_eval input hlen, hv2,
    info_v2_map_eval input v2 hlen, dict_extend_eval, except_bind_ok]

theorem build_torrent_root_eval (input : BuildInput) (info : Bencode) :
    build_torrent_root input info = bencode (Bencode.dict (rootList input info)) := by
  simp [build_torrent_root, insertSorted, key, byteLt, rootList]

theorem build_eval_none (input : BuildInput) (htr : ¬ input.trackers = [])
    (hlen : input.length < 9223372036854775808) (hv2 : input.v2 = none) :
    build input = Except.ok
      ⟨build_torrent_root input (Bencode.dict (v1InfoList input)),
       some (sha1 (bencode (Bencode.dict (v1InfoList input)))),
       none⟩ := by
  unfold build
  rw [if_neg htr]
  simp [build_info_full_eval_none input hlen hv2, except_bind_ok,
    build_info_v1, build_info_v2, info_v1_map_eval input hlen, hv2]

theorem build_eval_some (input : BuildInput) (v2 : V2Summary)
    (htr : ¬ input.trackers = [])
    (hlen : input.length < 9223372036854775808) (hv2 : input.v2 = some v2) :
    build input = Except.ok
      ⟨build_torrent_root input (Bencode.dict (fullInfoList input v2)),
       some (sha1 (bencode (Bencode.dict (v1InfoList input)))),
       some (sha256 (bencode (Bencode.dict (v2InfoList input v2))))⟩ := by
  unfold build
  rw [if_neg htr]
  simp [build_info_full_eval_some input v2 hlen hv2, except_bind_ok,
    build_info_v1, build_info_v2, info_v1_map_eval input hlen, hv2,
    info_v2_map_eval input v2 hlen]

theorem except_bind_err {α β : Type} (e : String) (f : α → Except String β) :
    (Except.error e : Except String α) >>= f = Except.error e := rfl

theorem except_map_ok {α β : Type} (f : α → β) (a : α) :
    (Except.ok a : Except String α).map f = Except.ok (f a) := rfl

theorem except_map_err {α β : Type} (f : α → β) (e : String) :
    (Except.error e : Except String α).map f = Except.error e := rfl

/-! ## Claim theorems: metainfo assembly -/

/-- C7: `build` fails with a validation error — no `Metainfo` is produced —
when the tracker list is empty, and likewise when the total length does
not fit in a signed 64-bit integer; an out-of-range length is never
truncated or wrapped into the bencoding. -/
theorem c7_build_validation (input : BuildInput)
    (h : input.trackers = [] ∨ 9223372036854775808 ≤ input.length) :
    ∃ e, build input = Except.error e := by
  by_cases htr : input.trackers = []
  · exact ⟨"At least one tracker is required", by unfold build; rw [if_pos htr]⟩
  · rcases h with h | hlen
    · exact absurd h htr
    · refine ⟨"value exceeds i64 range", ?_⟩
      unfold build
      rw [if_neg htr]
      have hi : i64_from_u64 input.length
          = Except.error "value exceeds i64 range" := by
        unfold i64_from_u64
        rw [if_neg (by omega)]
      simp [build_info_full, info_v1_map, hi, except_bind_ok, except_bind_err]

theorem c7_build_validation_witness :
    (let inp : BuildInput := ⟨[97], 0, 4, [], [], [], 0, [], none⟩
     inp.trackers = [] ∨ 9223372036854775808 ≤ inp.length)
    ∧ ∃ e, build ⟨[97], 0, 4, [], [], [], 0, [], none⟩ = Except.error e :=
  ⟨Or.inl rfl, c7_build_validation ⟨[97], 0, 4, [], [], [], 0, [], none⟩ (Or.inl rfl)⟩

/-- C8: two `BuildInput`s that differ only in `creation_date` and/or
`created_by` produce identical `infohash_v1` and `infohash_v2` (the two
fields never reach the hashed info dictionaries). -/
theorem c8_creation_metadata_noninterference (input : BuildInput)
    (d : Int) (s : List Nat) :
    (build { input with creation_date := d, created_by := s }).map
        (fun m => (m.infohash_v1, m.infohash_v2))
      = (build input).map (fun m => (m.infohash_v1, m.infohash_v2)) := by
  have h1 : build_info_full { input with creation_date := d, created_by := s }
      = build_info_full input := rfl
  have h2 : build_info_v1 { input with creation_date := d, created_by := s }
      = build_info_v1 input := rfl
  have h3 : build_info_v2 { input with creation_date := d, created_by := s }
      = build_info_v2 input := rfl
  have htrk : ({ input with creation_date := d, created_by := s }
      : BuildInput).trackers = input.trackers := rfl
  have hv2eq : ({ input with creation_date := d, created_by := s }
      : BuildInput).v2 = input.v2 := rfl
  unfold build
  by_cases h : input.trackers = []
  · simp only [htrk, if_pos h]
  · simp only [htrk, hv2eq, h1, h2, h3, if_neg h]
    cases hfull : build_info_full input with
    | error e => simp [except_bind_err, except_map_err]
    | ok vfull =>
        cases hv1 : build_info_v1 input with
        | error e => simp [except_bind_ok, except_bind_err, except_map_err]
        | ok v1 =>
            cases hv2 : build_info_v2 input with
            | error e => simp [except_bind_ok, except_bind_err, except_map_err]
            | ok vv2 => simp [except_bind_ok, except_map_ok]

/-- C9: for every accepted input the serialized root document is one
bencoded dictionary with exactly the keys `announce`, `announce-list`,
`created by`, `creation date`, `info`, `url-list` in strictly ascending
byte order with no duplicates; `announce` holds the first tracker,
`announce-list` one tier with all trackers in caller order, `url-list`
the webseeds in caller order. -/
theorem c9_root_document (input : BuildInput) (htr : ¬ input.trackers = [])
    (hlen : input.length < 9223372036854775808) :
    ∃ (m : Metainfo) (info : Bencode),
      build input = Except.ok m
      ∧ build_info_full input = Except.ok info
      ∧ m.torrent = bencode (Bencode.dict (rootList input info))
      ∧ ((rootList input info).map Prod.fst
          = [key "announce", key "announce-list", key "created by",
             key "creation date", key "info", key "url-list"])
      ∧ List.Chain' (fun a b => byteLt a b = true)
          [key "announce", key "announce-list", key "created by",
           key "creation date", key "info", key "url-list"] := by
  cases hv2 : input.v2 with
  | none =>
      exact ⟨_, Bencode.dict (v1InfoList input),
        build_eval_none input htr hlen hv2,
        build_info_full_eval_none input hlen hv2,
        build_torrent_root_eval input _,
        by simp [rootList],
        by simp only [List.chain'_cons, List.chain'_singleton]
           refine ⟨?_, ?_, ?_, ?_, ?_, trivial⟩ <;> decide⟩
  | some v2 =>
      exact ⟨_, Bencode.dict (fullInfoList input v2),
        build_eval_some input v2 htr hlen hv2,
        build_info_full_eval_some input v2 hlen hv2,
        build_torrent_root_eval input _,
        by simp [rootList],
        by simp only [List.chain'_cons, List.chain'_singleton]
           refine ⟨?_, ?_, ?_, ?_, ?_, trivial⟩ <;> decide⟩

theorem c9_root_document_witness :
    (¬ (⟨[97], 3, 4, [1, 2], [[104]], [[119]], 5, [99], none⟩
        : BuildInput).trackers = [])
    ∧ (⟨[97], 3, 4, [1, 2], [[104]], [[119]], 5, [99], none⟩
        : BuildInput).length < 9223372036854775808
    ∧ ∃ (m : Metainfo) (info : Bencode),
        build ⟨[97], 3, 4, [1, 2], [[104]], [[119]], 5, [99], none⟩ = Except.ok m
        ∧ build_info_full ⟨[97], 3, 4, [1, 2], [[104]], [[119]], 5, [99], none⟩
            = Except.ok info
        ∧ m.torrent = bencode (Bencode.dict
            (rootList ⟨[97], 3, 4, [1, 2], [[104]], [[119]], 5, [99], none⟩ info))
        ∧ ((rootList ⟨[97], 3, 4, [1, 2], [[104]], [[119]], 5, [99], none⟩
              info).map Prod.fst
            = [key "announce", key "announce-list", key "created by",
               key "creation date", key "info", key "url-list"])
        ∧ List.Chain' (fun a b => byteLt a b = true)
            [key "announce", key "announce-list", key "created by",
             key "creation date", key "info", key "url-list"] :=
  ⟨by decide, by decide,
   c9_root_document ⟨[97], 3, 4, [1, 2], [[104]], [[119]], 5, [99], none⟩
     (by decide) (by decide)⟩

/-- C4: for every accepted input, `infohash_v1` is present and equals SHA-1
of the canonical bencoding of the v1 info dictionary; `infohash_v2` is
present iff a V2 summary was supplied, and then equals SHA-256 of the
bencoded v2 info dictionary; with no V2 summary the combined info
dictionary carries exactly the four v1 keys and none of `meta version`,
`file tree`, `piece layers`. -/
theorem c4_infohash_derivation (input : BuildInput)
    (htr : ¬ input.trackers = [])
    (hlen : input.length < 9223372036854775808) :
    ∃ m : Metainfo, build input = Except.ok m
    ∧ m.infohash_v1 = some (sha1 (bencode (Bencode.dict (v1InfoList input))))
    ∧ (m.infohash_v2.isSome ↔ input.v2.isSome)
    ∧ (∀ v2, input.v2 = some v2 →
        m.infohash_v2 = some (sha256 (bencode (Bencode.dict (v2InfoList input v2)))))
    ∧ (input.v2 = none →
        m.infohash_v2 = none
        ∧ build_info_full input = Except.ok (Bencode.dict (v1InfoList input))
        ∧ (v1InfoList input).map Prod.fst
            = [key "length", key "name", key "piece length", key "pieces"]
        ∧ key "meta version"
            ∉ [key "length", key "name", key "piece length", key "pieces"]
        ∧ key "file tree"
            ∉ [key "length", key "name", key "piece length", key "pieces"]
        ∧ key "piece layers"
            ∉ [key "length", key "name", key "piece length", key "pieces"]) := by
  cases hv2 : input.v2 with
  | none =>
      refine ⟨_, build_eval_none input htr hlen hv2, rfl, by simp, ?_, ?_⟩
      · intro v2 hc
        cases hc
      · intro _
        exact ⟨rfl, build_info_full_eval_none input hlen hv2,
          by simp [v1InfoList], by decide, by decide, by decide⟩
  | some v2 =>
      refine ⟨_, build_eval_some input v2 htr hlen hv2, rfl, by simp, ?_, ?_⟩
      · intro v2x hc
        cases hc
        rfl
      · intro hc
        cases hc

theorem c4_infohash_derivation_witness :
    (¬ (⟨[98], 6, 4, [3], [[104]], [], 1, [100], none⟩
        : BuildInput).trackers = [])
    ∧ (⟨[98], 6, 4, [3], [[104]], [], 1, [100], none⟩
        : BuildInput).length < 9223372036854775808
    ∧ ∃ m : Metainfo,
        build ⟨[98], 6, 4, [3], [[104]], [], 1, [100], none⟩ = Except.ok m
        ∧ m.infohash_v1 = some (sha1 (bencode (Bencode.dict
            (v1InfoList ⟨[98], 6, 4, [3], [[104]], [], 1, [100], none⟩))))
        ∧ (m.infohash_v2.isSome ↔
            (⟨[98], 6, 4, [3], [[104]], [], 1, [100], none⟩
              : BuildInput).v2.isSome)
        ∧ (∀ v2, (⟨[98], 6, 4, [3], [[104]], [], 1, [100], none⟩
              : BuildInput).v2 = some v2 →
            m.infohash_v2 = some (sha256 (bencode (Bencode.dict
              (v2InfoList ⟨[98], 6, 4, [3], [[104]], [], 1, [100], none⟩ v2)))))
        ∧ ((⟨[98], 6, 4, [3], [[104]], [], 1, [100], none⟩
              : BuildInput).v2 = none →
            m.infohash_v2 = none
            ∧ build_info_full ⟨[98], 6, 4, [3], [[104]], [], 1, [100], none⟩
                = Except.ok (Bencode.dict
                    (v1InfoList ⟨[98], 6, 4, [3], [[104]], [], 1, [100], none⟩))
            ∧ (v1InfoList ⟨[98], 6, 4, [3], [[104]], [], 1, [100], none⟩).map
                  Prod.fst
                = [key "length", key "name", key "piece length", key "pieces"]
            ∧ key "meta version"
                ∉ [key "length", key "name", key "piece length", key "pieces"]
            ∧ key "file tree"
                ∉ [key "length", key "name", key "piece length", key "pieces"]
            ∧ key "piece layers"
                ∉ [key "length", key "name", key "piece length", key "pieces"]) :=
  ⟨by decide, by decide,
   c4_infohash_derivation ⟨[98], 6, 4, [3], [[104]], [], 1, [100], none⟩
     (by decide) (by decide)⟩

end Torseed
